import Mathlib

/-!
Shallow embedding of the hybrid retrieval pipeline of `src/api/retrieval.py`
(`wiki-in-a-box`).  Pure helper functions of the source become Lean functions;
the `Retriever` methods, which mutate the three LRU caches, become explicit
state-passing functions `St → Option α × St` where `none` models a raised
Python exception.  External collaborators (libzim archive, sentence
encoder, suggestion engine, sqlite title index, numpy argsort) are fields of
an `Env` record; embedding vectors are rational lists so that cosine scores
are exact.
-/

namespace WikiBox

/-- Embedding vectors (`np.ndarray` rows) are modelled as rational lists. -/
abbrev Vec := List ℚ

/-- Dot product of two vectors, the model of `emb @ qv.T` for unit rows. -/
def dotq (a b : Vec) : ℚ := (List.zipWith (fun x y => x * y) a b).sum

/-- Metadata triple `(title — section, url, snippet)` stored per chunk. -/
abbrev ChunkMeta := String × String × String

/-- Output record of `retrieval.RetrievalItem`. -/
structure RetrievalItem where
  id : Nat
  title : String
  url : String
  snippet : String
  score : ℚ
deriving DecidableEq, Repr

/-- Fuel-indexed unfolding of the generator loop of `_chunks` (lines 55-65):
`while start < n: end = min(n, start+size); yield (start, end);
if end == n: break; start = max(0, end - overlap)`.  Natural subtraction
`e - overlap` is exactly Python's `max(0, end - overlap)`. -/
def chunksAux (n size overlap : Nat) : Nat → Nat → List (Nat × Nat)
  | 0, _ => []
  | fuel + 1, start =>
    if start < n then
      let e := min n (start + size)
      if e = n then [(start, e)]
      else (start, e) :: chunksAux n size overlap fuel (e - overlap)
    else []

/-- Windows yielded by `_chunks(words, size_tokens, overlap)`.  With
`overlap < size_tokens` each loop step advances `start`, so fuel
`words.length + 1` reproduces every yield of the Python generator. -/
def chunksList (words : List String) (size_tokens overlap : Nat) : List (Nat × Nat) :=
  chunksAux words.length size_tokens overlap (words.length + 1) 0

/-- Accumulator loop behind `pySplit`: split a character list at whitespace
runs, dropping empty pieces; `cur` holds the current word reversed. -/
def wordsAux : List Char → List Char → List String
  | [], cur => if cur.isEmpty then [] else [String.mk cur.reverse]
  | c :: rest, cur =>
    if c.isWhitespace then
      if cur.isEmpty then wordsAux rest [] else String.mk cur.reverse :: wordsAux rest []
    else wordsAux rest (c :: cur)

/-- Python `str.split()` with no argument: split on whitespace, drop empties. -/
def pySplit (s : String) : List String := wordsAux s.data []

/-- Python `str.lower()` (character-wise lowering). -/
def pyLower (s : String) : String := String.mk (s.data.map Char.toLower)

/-- Python `str.strip()` with no argument: drop surrounding whitespace. -/
def pyStrip (s : String) : String :=
  String.mk (((s.data.dropWhile Char.isWhitespace).reverse.dropWhile Char.isWhitespace).reverse)

/-- Python `" ".join(ws)`. -/
def joinSpace (ws : List String) : String := String.intercalate " " ws

/-- Python `a or b` for strings: `b` when `a` is empty. -/
def pyOr (a b : String) : String := if a = "" then b else a

/-- Python `s.lstrip("/")`. -/
def pyLstripSlash (s : String) : String := String.mk (s.data.dropWhile fun c => c == '/')

/-- Character-list test that `pat` is a leading pattern of `s`. -/
def startsWithL : List Char → List Char → Bool
  | [], _ => true
  | _ :: _, [] => false
  | p :: ps, c :: cs => p == c && startsWithL ps cs

/-- Character-list test that `pat` occurs somewhere in the second list,
the model of Python's `pat in s` on strings. -/
def hasSubL (pat : List Char) : List Char → Bool
  | [] => startsWithL pat []
  | c :: rest => startsWithL pat (c :: rest) || hasSubL pat rest

/-- Mimetype gate of `_extract_chunks` / `_extract_lead` (line 115):
`mt.startswith("text/") or "html" in mt` after lowercasing. -/
def mimeTextual (mt : String) : Bool :=
  let m := pyLower mt
  startsWithL "text/".data m.data || hasSubL "html".data m.data

/-- Model of an archive entry.  The fields `sections` and `lead` stand for
what BeautifulSoup (an external collaborator) produces from the entry's
HTML: the `(heading, cleaned text)` section list built by the h2/h3 walk of
`_extract_chunks`, and the before-first-subheading lead text of
`_extract_lead`. -/
structure Entry where
  path : String
  title : String
  mimetype : String
  sections : List (String × String)
  lead : String

/-- Canonical url `"/" + entry.path.lstrip("/")` (line 147). -/
def entryUrl (e : Entry) : String := "/" ++ pyLstripSlash e.path

/-- Configuration constants read from the environment at module load. -/
structure Config where
  MAX_ARTICLES : Nat
  CHUNK_TOKENS : Nat
  CHUNK_OVERLAP : Nat
  MAX_CHUNKS : Nat
  RECALL_LIMIT : Nat
  SECOND_PASS_ENABLE : Bool
  SIM_THRESHOLD : ℚ
  SECOND_PASS_FACTOR : ℚ
  SUGGESTION_LIMIT : Nat
  TITLE_SIM_EXIT : ℚ
  TOP_PAGES : Nat

/-- Chunk text of window `(s, t)`: `" ".join(words[s:t])` (line 157). -/
def windowChunk (words : List String) (w : Nat × Nat) : String :=
  joinSpace ((words.drop w.1).take (w.2 - w.1))

/-- Snippet of window `(s, t)`: `" ".join(words[s : min(t, s + 60)])` (line 158). -/
def windowSnippet (words : List String) (w : Nat × Nat) : String :=
  joinSpace ((words.drop w.1).take (min w.2 (w.1 + 60) - w.1))

/-- Inner loop of `_extract_chunks` over the sliding windows of one long
section, with the `len(chunk_texts) >= MAX_CHUNKS` break (lines 156-162). -/
def windowLoop (MAXC : Nat) (heading url : String) (words : List String) :
    List (Nat × Nat) → List String × List ChunkMeta → List String × List ChunkMeta
  | [], acc => acc
  | w :: ws, (ts, ms) =>
    let ts2 := ts ++ [windowChunk words w]
    let ms2 := ms ++ [(heading, url, windowSnippet words w)]
    if MAXC ≤ ts2.length then (ts2, ms2)
    else windowLoop MAXC heading url words ws (ts2, ms2)

/-- Outer loop of `_extract_chunks` over sections (lines 151-168). -/
def sectionLoop (CT CO MAXC : Nat) (title url : String) :
    List (String × String) → List String × List ChunkMeta → List String × List ChunkMeta
  | [], acc => acc
  | (secTitle, secText) :: rest, (ts, ms) =>
    if secText = "" then sectionLoop CT CO MAXC title url rest (ts, ms)
    else
      let words := pySplit secText
      let heading := title ++ " — " ++ secTitle
      let acc2 :=
        if CT * 2 < words.length then
          windowLoop MAXC heading url words (chunksList words CT CO) (ts, ms)
        else (ts ++ [joinSpace words], ms ++ [(heading, url, joinSpace (words.take 60))])
      if MAXC ≤ acc2.1.length then acc2
      else sectionLoop CT CO MAXC title url rest acc2

/-- Model of `Retriever._extract_chunks` (lines 112-169): mimetype gate,
then section-wise chunking with the per-page cap. -/
def extract_chunks (cfg : Config) (e : Entry) : List String × List ChunkMeta :=
  if mimeTextual e.mimetype then
    sectionLoop cfg.CHUNK_TOKENS cfg.CHUNK_OVERLAP cfg.MAX_CHUNKS
      (pyOr e.title e.path) (entryUrl e) e.sections ([], [])
  else ([], [])

/-- Model of `Retriever._extract_lead` (lines 171-193); the lead text itself
is produced by the external HTML parser and lives in `Entry.lead`. -/
def extract_lead (e : Entry) : String × String :=
  if mimeTextual e.mimetype then (pyOr e.title e.path, e.lead)
  else (pyOr e.title e.path, "")

/-- Python `_normalize_query`: collapse whitespace, strip, lowercase. -/
def normalizeQuery (q : String) : String := pyLower (pyStrip (joinSpace (pySplit q)))

/-- Maximal runs matched by `re.findall(r"[A-Za-z][A-Za-z\-]+", qn)`:
a letter followed by at least one letter or hyphen.  Every step consumes at
least one character, so fuel `l.length + 1` never runs out. -/
def findTokensAux : Nat → List Char → List String
  | 0, _ => []
  | _ + 1, [] => []
  | fuel + 1, c :: rest =>
    if c.isAlpha then
      let run := rest.takeWhile fun d => d.isAlpha || d == '-'
      if run.isEmpty then findTokensAux fuel rest
      else String.mk (c :: run) :: findTokensAux fuel (rest.drop run.length)
    else findTokensAux fuel rest

/-- Scanner entry point for the token regex. -/
def findTokens (l : List Char) : List String := findTokensAux (l.length + 1) l

/-- Stopword set of `_title_suggest_paths` (lines 259-262). -/
def stopWords : List String :=
  ["the", "a", "an", "and", "or", "of", "to", "for", "with", "in", "on", "by", "at",
   "is", "are", "was", "were", "be", "been", "being", "what", "why", "how", "who",
   "when", "where", "which", "that", "this", "these", "those"]

/-- Surviving query tokens: alphabetic runs, stopwords dropped, length ≥ 3. -/
def tokensOf (qn : String) : List String :=
  (findTokens qn.data).filter fun w => !(stopWords.contains w) && decide (3 ≤ w.length)

/-- Append `x` unless already present, keeping first-seen order (the
`seen_c` bookkeeping of lines 265-280). -/
def addIfNew (acc : List String) (x : String) : List String :=
  if acc.contains x then acc else acc ++ [x]

/-- Candidate phrases: deduplicated unigrams, then adjacent bigrams, then
the last token again (lines 265-280). -/
def buildCands (tokens : List String) : List String :=
  let c1 := tokens.foldl addIfNew []
  let c2 := (tokens.zip tokens.tail).foldl (fun acc ab => addIfNew acc (ab.1 ++ " " ++ ab.2)) c1
  match tokens.getLast? with
  | some last => addIfNew c2 last
  | none => c2

/-- Inner suggestion loop (lines 291-294): append every returned path, then
break as soon as the accumulated length reaches the limit. -/
def appendUntil (L : Nat) : List String → List String → List String
  | [], out => out
  | p :: ps, out =>
    let out2 := out ++ [p]
    if L ≤ out2.length then out2 else appendUntil L ps out2

/-- Outer suggestion loop of `_title_suggest_paths` (lines 282-298): per
candidate, `take = min(SUGGESTION_LIMIT, count)` results are appended via
`appendUntil`; a per-candidate failure (`none`) is skipped.  Returns the
accumulated paths together with the list of candidates actually issued to
the suggestion engine. -/
def suggestAccum (sugg : String → Option (Nat × List String)) (L : Nat) :
    List String → List String → List String × List String
  | [], out => (out, [])
  | c :: cs, out =>
    match sugg c with
    | none =>
      let r := suggestAccum sugg L cs out
      (r.1, c :: r.2)
    | some (cnt, res) =>
      let out2 := appendUntil L (res.take (min L cnt)) out
      if L ≤ out2.length then (out2, [c])
      else
        let r := suggestAccum sugg L cs out2
        (r.1, c :: r.2)

/-- Final order-preserving dedup of `_title_suggest_paths` (lines 309-315). -/
def dedupFirst : List String → List String → List String
  | [], _ => []
  | p :: ps, seen =>
    if seen.contains p then dedupFirst ps seen else p :: dedupFirst ps (p :: seen)

/-- Model of the access-ordered `_LRU` built on `OrderedDict`: entries are
kept least-recently-used first. -/
structure LRU (α : Type) where
  cap : Nat
  entries : List (String × α)

/-- Lookup in `_LRU.get`: a hit is moved to the most-recent end. -/
def LRU.get {α : Type} (c : LRU α) (k : String) : Option α × LRU α :=
  if c.cap = 0 then (none, c)
  else
    match c.entries.find? (fun e => e.1 == k) with
    | none => (none, c)
    | some kv =>
      (some kv.2, { c with entries := (c.entries.filter fun e => !(e.1 == k)) ++ [(k, kv.2)] })

/-- Insert in `_LRU.set`: move/insert at the most-recent end, then pop from
the least-recent end while over capacity. -/
def LRU.set {α : Type} (c : LRU α) (k : String) (v : α) : LRU α :=
  if c.cap = 0 then c
  else
    let moved :=
      if c.entries.any fun e => e.1 == k then
        (c.entries.filter fun e => !(e.1 == k)) ++ [(k, v)]
      else c.entries ++ [(k, v)]
    { c with entries := moved.drop (moved.length - c.cap) }

/-- Value stored in `_chunk_cache` under a page path: the extracted chunk
texts, their metadata, and their embedding matrix (rows in text order).
The code only ever stores records whose `emb` was just computed, so the
field is not optional. -/
structure ChunkRec where
  texts : List String
  meta : List ChunkMeta
  emb : List Vec

/-- Value stored in `_lead_cache` under a page path. -/
structure LeadRec where
  emb : Vec
  title : String

/-- External collaborators of the retriever.  `encode` returns `none` when
the embedding backend raises; `ftSearch q wanted` models
`Searcher(zim).search(Query(q)).getResults(0, wanted)` (`none` = raise);
`suggest` returns the estimated match count and the ranked suggestion
results; `argsortNeg s` models `np.argsort(-s)`, numpy's index sort in
descending score order, whose tie behaviour the source does not fix. -/
structure Env where
  encode : String → Option Vec
  getEntry : String → Option Entry
  ftSearch : String → Nat → Option (List String)
  suggesterAvail : Bool
  suggest : String → Option (Nat × List String)
  searchTitles : String → Nat → Option (List (String × String))
  argsortNeg : List ℚ → List Nat

/-- Mutable state of a `Retriever`: the three LRU caches, plus a counter of
full-text `Searcher` invocations used to observe collaborator calls. -/
structure St where
  chunkC : LRU ChunkRec
  suggestC : LRU (List String)
  leadC : LRU LeadRec
  ftCalls : Nat

/-- Encoding a batch of texts (`self._encode(texts)`): fails if the backend
fails on any of them. -/
def encodeList (env : Env) (ts : List String) : Option (List Vec) :=
  ts.mapM env.encode

/-- Pure part of the suggestion computation done on a suggestion-cache miss
(lines 257-315): candidate phrases, suggestion-engine accumulation, FTS5
title-index append, final order-preserving dedup. -/
def computeSuggest (env : Env) (cfg : Config) (qn : String) : List String :=
  let tokens := tokensOf qn
  let cands := buildCands tokens
  let out1 := if env.suggesterAvail then (suggestAccum env.suggest cfg.SUGGESTION_LIMIT cands []).1 else []
  let tokenQuery := if tokens.isEmpty then qn else String.intercalate " OR " tokens
  let ftsPart :=
    match env.searchTitles tokenQuery (max 10 cfg.SUGGESTION_LIMIT) with
    | some rows => rows.map fun r => r.1
    | none => []
  dedupFirst (out1 ++ ftsPart) []

/-- Model of `Retriever._title_suggest_paths` (lines 252-321): serve from
the suggestion cache when possible, otherwise compute and cache. -/
def title_suggest_paths (env : Env) (cfg : Config) (q : String) (σ : St) :
    Option (List String) × St :=
  let qn := normalizeQuery q
  let g := σ.suggestC.get qn
  let σ1 := { σ with suggestC := g.2 }
  match g.1 with
  | some ps => (some ps, σ1)
  | none =>
    let deduped := computeSuggest env cfg qn
    (some deduped, { σ1 with suggestC := σ1.suggestC.set qn deduped })

/-- Dedup-bounded path accumulation of the recall loop (lines 204-209):
append unseen paths and break once `recall_limit` distinct paths are held. -/
def recallInner (limit : Nat) : List String → List String → List String
  | [], acc => acc
  | p :: ps, acc =>
    if acc.contains p then recallInner limit ps acc
    else
      let acc2 := acc ++ [p]
      if limit ≤ acc2.length then acc2 else recallInner limit ps acc2

/-- Recall loop over the query list (lines 201-213); the second component
counts the `Searcher` invocations performed. -/
def recallPaths (env : Env) (wanted limit : Nat) :
    List String → List String → List String × Nat
  | [], acc => (acc, 0)
  | q :: qs, acc =>
    match env.ftSearch q wanted with
    | none =>
      let r := recallPaths env wanted limit qs acc
      (r.1, r.2 + 1)
    | some res =>
      let acc2 := recallInner limit res acc
      if limit ≤ acc2.length then (acc2, 1)
      else
        let r := recallPaths env wanted limit qs acc2
        (r.1, r.2 + 1)

/-- Chunk-accumulation loop shared by `_recall_and_chunks` (lines 219-247)
and the title stage of `search` (lines 363-390): per path, consult the
chunk cache, else fetch + extract + encode, then extend the accumulators up
to the global `MAX_CHUNKS` budget, caching fresh computations. -/
def accumChunksOver (env : Env) (cfg : Config) :
    List String → List String × List ChunkMeta × List Vec → St →
      Option (List String × List ChunkMeta × List Vec) × St
  | [], acc, σ => (some acc, σ)
  | p :: ps, acc, σ =>
    if cfg.MAX_CHUNKS ≤ acc.1.length then (some acc, σ)
    else
      let g := σ.chunkC.get p
      let σ1 := { σ with chunkC := g.2 }
      match g.1 with
      | some r =>
        if r.texts.isEmpty then accumChunksOver env cfg ps acc σ1
        else
          let tk := min r.texts.length (cfg.MAX_CHUNKS - acc.1.length)
          accumChunksOver env cfg ps
            (acc.1 ++ r.texts.take tk, acc.2.1 ++ r.meta.take tk, acc.2.2 ++ r.emb.take tk) σ1
      | none =>
        match env.getEntry p with
        | none => accumChunksOver env cfg ps acc σ1
        | some e =>
          let tm := extract_chunks cfg e
          if tm.1.isEmpty then accumChunksOver env cfg ps acc σ1
          else
            match encodeList env tm.1 with
            | none => (none, σ1)
            | some emb =>
              let tk := min tm.1.length (cfg.MAX_CHUNKS - acc.1.length)
              let σ2 := { σ1 with chunkC := σ1.chunkC.set p ⟨tm.1, tm.2, emb⟩ }
              accumChunksOver env cfg ps
                (acc.1 ++ tm.1.take tk, acc.2.1 ++ tm.2.take tk, acc.2.2 ++ emb.take tk) σ2

/-- Model of `Retriever._recall_and_chunks` (lines 198-250). -/
def recall_and_chunks (env : Env) (cfg : Config) (queries : List String)
    (wanted recall_limit : Nat) (σ : St) :
    Option (List String × List ChunkMeta × List Vec) × St :=
  let pr := recallPaths env wanted recall_limit queries []
  accumChunksOver env cfg pr.1 ([], [], []) { σ with ftCalls := σ.ftCalls + pr.2 }

/-- Page-reranking loop of `search` (lines 329-350), returning the
`(score, path, title)` triples in candidate order. -/
def scorePages (env : Env) (qv : Vec) :
    List String → List (ℚ × String × String) → St →
      Option (List (ℚ × String × String)) × St
  | [], acc, σ => (some acc, σ)
  | p :: ps, acc, σ =>
    let g := σ.leadC.get p
    let σ1 := { σ with leadC := g.2 }
    match g.1 with
    | some r => scorePages env qv ps (acc ++ [(dotq r.emb qv, p, r.title)]) σ1
    | none =>
      match env.getEntry p with
      | none => scorePages env qv ps acc σ1
      | some e =>
        let tl := extract_lead e
        if tl.2 = "" then scorePages env qv ps acc σ1
        else
          match env.encode (tl.1 ++ ". " ++ tl.2) with
          | none => (none, σ1)
          | some lemb =>
            let σ2 := { σ1 with leadC := σ1.leadC.set p ⟨lemb, tl.1⟩ }
            scorePages env qv ps (acc ++ [(dotq lemb qv, p, tl.1)]) σ2

/-- Stable descending insertion used to model Python's stable
`page_scores.sort(key=lambda x: -x[0])`: an element is placed after every
already-placed element of greater-or-equal score. -/
def insDesc (x : ℚ × String × String) :
    List (ℚ × String × String) → List (ℚ × String × String)
  | [] => [x]
  | y :: ys => if y.1 < x.1 then x :: y :: ys else y :: insDesc x ys

/-- Stable sort of the page scores, descending by score. -/
def sortDescScores (l : List (ℚ × String × String)) : List (ℚ × String × String) :=
  l.foldl (fun acc x => insDesc x acc) []

/-- Python `scores.max() if scores.size else 0.0`. -/
def listMaxD : List ℚ → ℚ → ℚ
  | [], d => d
  | x :: xs, _ => xs.foldl max x

/-- Item construction loop `for i, idx in enumerate(top.tolist())`
(lines 398-400 and 440-450): positional ids, metadata and score looked up
at the ranked index. -/
def mkItemsFrom (scores : List ℚ) (meta : List ChunkMeta) (i : Nat) :
    List Nat → List RetrievalItem
  | [] => []
  | idx :: rest =>
    let m := meta.getD idx ("", "", "")
    { id := i, title := m.1, url := m.2.1, snippet := m.2.2,
      score := scores.getD idx 0 } :: mkItemsFrom scores meta (i + 1) rest

/-- RetrievalItems for the ranked index list `top`. -/
def mkItems (top : List Nat) (scores : List ℚ) (meta : List ChunkMeta) :
    List RetrievalItem :=
  mkItemsFrom scores meta 0 top

/-- Title stage of `search` (lines 325-410): page rerank over the suggested
paths, chunk accumulation for the top pages, and the early-exit test.
`some items` is an early exit, `none` (inner) falls through to the
full-text stage; the outer `none` is a raised exception. -/
def titleStage (env : Env) (cfg : Config) (query : String) (top_k : Nat)
    (title_paths : List String) (σ : St) :
    Option (Option (List RetrievalItem)) × St :=
  if title_paths.isEmpty then (some none, σ)
  else
    match env.encode query with
    | none => (none, σ)
    | some qv =>
      match scorePages env qv title_paths [] σ with
      | (none, σ1) => (none, σ1)
      | (some ps, σ1) =>
        if ps.isEmpty then (some none, σ1)
        else
          let top_pages := (sortDescScores ps).take (max 1 cfg.TOP_PAGES)
          match accumChunksOver env cfg (top_pages.map fun x => x.2.1) ([], [], []) σ1 with
          | (none, σ2) => (none, σ2)
          | (some acc, σ2) =>
            if acc.1.isEmpty then (some none, σ2)
            else
              let scores := acc.2.2.map fun v => dotq v qv
              let best := listMaxD scores 0
              if cfg.TITLE_SIM_EXIT ≤ best then
                (some (some ((mkItems ((env.argsortNeg scores).take (max top_k 1))
                  scores acc.2.1).take top_k)), σ2)
              else (some none, σ2)

/-- Outcome of the guarded ranking block of `search` (lines 419-437):
either the `return []` of an empty widened recall, or a ranked index list
with its scores and the chunk lists they refer to. -/
inductive TryRes where
  | retEmpty : TryRes
  | ranked : List Nat → List ℚ → List String → List ChunkMeta → TryRes

/-- Guarded ranking block of `search` (lines 419-437): embed the query,
score, optionally widen the recall, and on any caught exception fall back
to the first chunks with uniform score 1. -/
def stage2rank (env : Env) (cfg : Config) (query : String) (top_k wanted : Nat)
    (ct : List String) (cm : List ChunkMeta) (XV : List Vec) (σ : St) :
    Option TryRes × St :=
  match env.encode query with
  | none =>
    (some (TryRes.ranked (List.range (min ct.length top_k))
      (List.replicate ct.length 1) ct cm), σ)
  | some qv =>
    let scores := XV.map fun v => dotq v qv
    let best := listMaxD scores 0
    if cfg.SECOND_PASS_ENABLE && decide (best < cfg.SIM_THRESHOLD) then
      let ww := (⌊(wanted : ℚ) * cfg.SECOND_PASS_FACTOR⌋).toNat
      let wl := (⌊(cfg.RECALL_LIMIT : ℚ) * cfg.SECOND_PASS_FACTOR⌋).toNat
      match recall_and_chunks env cfg [query] ww wl σ with
      | (none, σ2) =>
        (some (TryRes.ranked (List.range (min ct.length top_k))
          (List.replicate ct.length 1) ct cm), σ2)
      | (some acc2, σ2) =>
        if acc2.1.isEmpty then (some TryRes.retEmpty, σ2)
        else
          let scores2 := acc2.2.2.map fun v => dotq v qv
          (some (TryRes.ranked ((env.argsortNeg scores2).take (max top_k 1))
            scores2 acc2.1 acc2.2.1), σ2)
    else
      (some (TryRes.ranked ((env.argsortNeg scores).take (max top_k 1)) scores ct cm), σ)

/-- Model of `Retriever.search` (lines 323-451). -/
def search (env : Env) (cfg : Config) (query : String) (top_k : Nat) (σ : St) :
    Option (List RetrievalItem) × St :=
  match title_suggest_paths env cfg query σ with
  | (none, σ1) => (none, σ1)
  | (some tp, σ1) =>
    match titleStage env cfg query top_k tp σ1 with
    | (none, σ2) => (none, σ2)
    | (some (some items), σ2) => (some items, σ2)
    | (some none, σ2) =>
      let wanted := max 200 (cfg.MAX_ARTICLES * 10)
      match recall_and_chunks env cfg [query] wanted cfg.RECALL_LIMIT σ2 with
      | (none, σ3) => (none, σ3)
      | (some acc, σ3) =>
        if acc.1.isEmpty then (some [], σ3)
        else
          match stage2rank env cfg query top_k wanted acc.1 acc.2.1 acc.2.2 σ3 with
          | (none, σ4) => (none, σ4)
          | (some TryRes.retEmpty, σ4) => (some [], σ4)
          | (some (TryRes.ranked top scores _ctF cmF), σ4) =>
            (some ((mkItems top scores cmF).take top_k), σ4)

/-- Final ranking of `search_in_path` once embeddings are available
(lines 472-481). -/
def sipFinish (env : Env) (query : String) (top_k : Nat) (emb : List Vec)
    (meta : List ChunkMeta) (σ : St) : Option (List RetrievalItem) × St :=
  match env.encode query with
  | none => (none, σ)
  | some qv =>
    let scores := emb.map fun v => dotq v qv
    (some ((mkItems ((env.argsortNeg scores).take (max top_k 1)) scores meta).take top_k), σ)

/-- Model of `Retriever.search_in_path` (lines 453-481). -/
def search_in_path (env : Env) (cfg : Config) (path query : String) (top_k : Nat)
    (σ : St) : Option (List RetrievalItem) × St :=
  match env.getEntry (pyLstripSlash path) with
  | none => (some [], σ)
  | some e =>
    let g := σ.chunkC.get e.path
    let σ1 := { σ with chunkC := g.2 }
    match g.1 with
    | some r =>
      if r.texts.isEmpty then (some [], σ1)
      else sipFinish env query top_k r.emb r.meta σ1
    | none =>
      let tm := extract_chunks cfg e
      if tm.1.isEmpty then (some [], σ1)
      else
        match encodeList env tm.1 with
        | none => (none, σ1)
        | some emb =>
          let σ2 := { σ1 with chunkC := σ1.chunkC.set e.path ⟨tm.1, tm.2, emb⟩ }
          sipFinish env query top_k emb tm.2 σ2

/-- Unit-norm condition on the cached embedding vectors — the model of
"all embedding vectors are unit-normalized" for cache contents. -/
def WFSt (σ : St) : Prop :=
  (∀ pr ∈ σ.chunkC.entries, ∀ v ∈ pr.2.emb, dotq v v = 1) ∧
  (∀ pr ∈ σ.leadC.entries, dotq pr.2.emb pr.2.emb = 1)

/-- Coherence of one chunk-cache record with the collaborators: the record
is exactly what a fresh fetch + extraction + encoding of that path yields. -/
def ChunkVal (env : Env) (cfg : Config) (p : String) (r : ChunkRec) : Prop :=
  ∃ e, env.getEntry p = some e ∧ (extract_chunks cfg e).1 = r.texts ∧
    (extract_chunks cfg e).2 = r.meta ∧ r.texts ≠ [] ∧
    encodeList env r.texts = some r.emb

/-- Coherence of one lead-cache record with the collaborators. -/
def LeadVal (env : Env) (p : String) (r : LeadRec) : Prop :=
  ∃ e, env.getEntry p = some e ∧ (extract_lead e).2 ≠ "" ∧
    (extract_lead e).1 = r.title ∧
    env.encode (r.title ++ ". " ++ (extract_lead e).2) = some r.emb

/-- Coherence of a suggestion cache with the collaborators. -/
def SuggCo (env : Env) (cfg : Config) (c : LRU (List String)) : Prop :=
  ∀ pr ∈ c.entries, pr.2 = computeSuggest env cfg pr.1

/-- Coherence of a chunk cache with the collaborators. -/
def ChunkCo (env : Env) (cfg : Config) (c : LRU ChunkRec) : Prop :=
  ∀ pr ∈ c.entries, ChunkVal env cfg pr.1 pr.2

/-- Coherence of a lead cache with the collaborators. -/
def LeadCo (env : Env) (c : LRU LeadRec) : Prop :=
  ∀ pr ∈ c.entries, LeadVal env pr.1 pr.2

/-- Coherence of the whole retriever state with the collaborators: every
cached artifact equals the value a fresh computation would produce.  The
empty caches are trivially coherent, and the retriever only ever stores
freshly computed artifacts. -/
def Coherent (env : Env) (cfg : Config) (σ : St) : Prop :=
  SuggCo env cfg σ.suggestC ∧ ChunkCo env cfg σ.chunkC ∧ LeadCo env σ.leadC

/-- Cache-free counterpart of the page-reranking loop: what `scorePages`
computes when every lookup misses. -/
def scorePagesPure (env : Env) (qv : Vec) :
    List String → List (ℚ × String × String) → Option (List (ℚ × String × String))
  | [], acc => some acc
  | p :: ps, acc =>
    match env.getEntry p with
    | none => scorePagesPure env qv ps acc
    | some e =>
      let tl := extract_lead e
      if tl.2 = "" then scorePagesPure env qv ps acc
      else
        match env.encode (tl.1 ++ ". " ++ tl.2) with
        | none => none
        | some lemb => scorePagesPure env qv ps (acc ++ [(dotq lemb qv, p, tl.1)])

/-- Cache-free counterpart of the chunk-accumulation loop. -/
def accumPure (env : Env) (cfg : Config) :
    List String → List String × List ChunkMeta × List Vec →
      Option (List String × List ChunkMeta × List Vec)
  | [], acc => some acc
  | p :: ps, acc =>
    if cfg.MAX_CHUNKS ≤ acc.1.length then some acc
    else
      match env.getEntry p with
      | none => accumPure env cfg ps acc
      | some e =>
        let tm := extract_chunks cfg e
        if tm.1.isEmpty then accumPure env cfg ps acc
        else
          match encodeList env tm.1 with
          | none => none
          | some emb =>
            let tk := min tm.1.length (cfg.MAX_CHUNKS - acc.1.length)
            accumPure env cfg ps
              (acc.1 ++ tm.1.take tk, acc.2.1 ++ tm.2.take tk, acc.2.2 ++ emb.take tk)

/-- Cache-free counterpart of `_recall_and_chunks`. -/
def recallChunksPure (env : Env) (cfg : Config) (queries : List String)
    (wanted recall_limit : Nat) : Option (List String × List ChunkMeta × List Vec) :=
  accumPure env cfg (recallPaths env wanted recall_limit queries []).1 ([], [], [])

/-- Cache-free counterpart of the title stage. -/
def titleStagePure (env : Env) (cfg : Config) (query : String) (top_k : Nat)
    (title_paths : List String) : Option (Option (List RetrievalItem)) :=
  if title_paths.isEmpty then some none
  else
    match env.encode query with
    | none => none
    | some qv =>
      match scorePagesPure env qv title_paths [] with
      | none => none
      | some ps =>
        if ps.isEmpty then some none
        else
          let top_pages := (sortDescScores ps).take (max 1 cfg.TOP_PAGES)
          match accumPure env cfg (top_pages.map fun x => x.2.1) ([], [], []) with
          | none => none
          | some acc =>
            if acc.1.isEmpty then some none
            else
              let scores := acc.2.2.map fun v => dotq v qv
              if cfg.TITLE_SIM_EXIT ≤ listMaxD scores 0 then
                some (some ((mkItems ((env.argsortNeg scores).take (max top_k 1))
                  scores acc.2.1).take top_k))
              else some none

/-- Cache-free counterpart of the guarded ranking block. -/
def stage2rankPure (env : Env) (cfg : Config) (query : String) (top_k wanted : Nat)
    (ct : List String) (cm : List ChunkMeta) (XV : List Vec) : Option TryRes :=
  match env.encode query with
  | none =>
    some (TryRes.ranked (List.range (min ct.length top_k))
      (List.replicate ct.length 1) ct cm)
  | some qv =>
    let scores := XV.map fun v => dotq v qv
    if cfg.SECOND_PASS_ENABLE && decide (listMaxD scores 0 < cfg.SIM_THRESHOLD) then
      let ww := (⌊(wanted : ℚ) * cfg.SECOND_PASS_FACTOR⌋).toNat
      let wl := (⌊(cfg.RECALL_LIMIT : ℚ) * cfg.SECOND_PASS_FACTOR⌋).toNat
      match recallChunksPure env cfg [query] ww wl with
      | none =>
        some (TryRes.ranked (List.range (min ct.length top_k))
          (List.replicate ct.length 1) ct cm)
      | some acc2 =>
        if acc2.1.isEmpty then some TryRes.retEmpty
        else
          let scores2 := acc2.2.2.map fun v => dotq v qv
          some (TryRes.ranked ((env.argsortNeg scores2).take (max top_k 1))
            scores2 acc2.1 acc2.2.1)
    else
      some (TryRes.ranked ((env.argsortNeg scores).take (max top_k 1)) scores ct cm)

/-- Cache-free counterpart of `Retriever.search`: the value the pipeline
returns as a function of the collaborators alone. -/
def searchPure (env : Env) (cfg : Config) (query : String) (top_k : Nat) :
    Option (List RetrievalItem) :=
  match titleStagePure env cfg query top_k (computeSuggest env cfg (normalizeQuery query)) with
  | none => none
  | some (some items) => some items
  | some none =>
    let wanted := max 200 (cfg.MAX_ARTICLES * 10)
    match recallChunksPure env cfg [query] wanted cfg.RECALL_LIMIT with
    | none => none
    | some acc =>
      if acc.1.isEmpty then some []
      else
        match stage2rankPure env cfg query top_k wanted acc.1 acc.2.1 acc.2.2 with
        | none => none
        | some TryRes.retEmpty => some []
        | some (TryRes.ranked top scores _ctF cmF) =>
          some ((mkItems top scores cmF).take top_k)

/-- Default configuration of the source (`MAX_ARTICLES=20`, `CHUNK_TOKENS=160`,
`CHUNK_OVERLAP=20`, `MAX_CHUNKS=120`, `RECALL_LIMIT=200`,
`SECOND_PASS_ENABLE=true`, `SIM_THRESHOLD=0.22`, `SECOND_PASS_FACTOR=2.0`,
`SUGGESTION_LIMIT=20`, `TITLE_SIM_EXIT=0.28`, `TOP_PAGES=3`). -/
def cfg0 : Config :=
  { MAX_ARTICLES := 20, CHUNK_TOKENS := 160, CHUNK_OVERLAP := 20, MAX_CHUNKS := 120,
    RECALL_LIMIT := 200, SECOND_PASS_ENABLE := true, SIM_THRESHOLD := mkRat 11 50,
    SECOND_PASS_FACTOR := 2, SUGGESTION_LIMIT := 20, TITLE_SIM_EXIT := mkRat 7 25,
    TOP_PAGES := 3 }

/-- Fresh retriever state: empty caches with the default capacities. -/
def st0 : St :=
  { chunkC := ⟨64, []⟩, suggestC := ⟨128, []⟩, leadC := ⟨64, []⟩, ftCalls := 0 }

/-- Sample archive entry used by concrete witnesses. -/
def entry0 : Entry :=
  { path := "A/Foo", title := "Foo", mimetype := "text/html",
    sections := [("Lead", "hello world")], lead := "hello world" }

/-- Witness environment: one suggestable page whose single chunk matches the
query perfectly (every embedding is the unit vector `[1]`). -/
def env1 : Env :=
  { encode := fun _ => some [1],
    getEntry := fun p => if p = "A/Foo" then some entry0 else none,
    ftSearch := fun _ _ => some [],
    suggesterAvail := true,
    suggest := fun _ => some (1, ["A/Foo"]),
    searchTitles := fun _ _ => none,
    argsortNeg := fun s => List.range s.length }

/-- State after the suggestion stage of the witness run. -/
def st1w : St := { st0 with suggestC := ⟨128, [("hello", ["A/Foo"])]⟩ }

/-- State after the page-rerank stage of the witness run. -/
def st2w : St := { st1w with leadC := ⟨64, [("A/Foo", ⟨[1], "Foo"⟩)]⟩ }

/-- State after title-stage chunk accumulation of the witness run. -/
def st3w : St :=
  { st2w with chunkC :=
      ⟨64, [("A/Foo", ⟨["hello world"], [("Foo — Lead", "/A/Foo", "hello world")], [[1]]⟩)]⟩ }

/-- Second sample entry (page `P1`) for the widening witness. -/
def entryP1 : Entry :=
  { path := "P1", title := "P1", mimetype := "text/html",
    sections := [("Lead", "alpha beta")], lead := "alpha beta" }

/-- Third sample entry (page `P2`) for the widening witness. -/
def entryP2 : Entry :=
  { path := "P2", title := "P2", mimetype := "text/html",
    sections := [("Lead", "gamma delta")], lead := "gamma delta" }

/-- Witness environment for the widening claim: no title suggestions, a
full-text search that returns one path at the original recall arguments and
two paths at the widened ones, and an encoder whose chunk vectors are
orthogonal to the query vector (best similarity 0, triggering widening). -/
def env2 : Env :=
  { encode := fun s => if s = "q" then some [1, 0] else some [0, 1],
    getEntry := fun p =>
      if p = "P1" then some entryP1 else if p = "P2" then some entryP2 else none,
    ftSearch := fun _ w => if w = 200 then some ["P1"] else some ["P1", "P2"],
    suggesterAvail := true,
    suggest := fun _ => some (0, []),
    searchTitles := fun _ _ => none,
    argsortNeg := fun s => List.range s.length }

/-- State after the (empty) suggestion stage of the widening witness. -/
def st1x : St := { st0 with suggestC := ⟨128, [("q", [])]⟩ }

/-- Chunk record of `P1` in the widening witness. -/
def recP1 : ChunkRec :=
  ⟨["alpha beta"], [("P1 — Lead", "/P1", "alpha beta")], [[0, 1]]⟩

/-- Chunk record of `P2` in the widening witness. -/
def recP2 : ChunkRec :=
  ⟨["gamma delta"], [("P2 — Lead", "/P2", "gamma delta")], [[0, 1]]⟩

/-- State after the first full-text pass of the widening witness. -/
def st3x : St := { st1x with chunkC := ⟨64, [("P1", recP1)]⟩, ftCalls := 1 }

/-- State after the widened retry of the widening witness. -/
def st4x : St :=
  { st1x with chunkC := ⟨64, [("P1", recP1), ("P2", recP2)]⟩, ftCalls := 2 }

/-- Witness environment for the degenerate fallback: no title suggestions,
one recalled page, chunk embeddings succeed, query embedding fails. -/
def env3 : Env :=
  { encode := fun s => if s = "q" then none else some [1],
    getEntry := fun p => if p = "P1" then some entryP1 else none,
    ftSearch := fun _ _ => some ["P1"],
    suggesterAvail := true,
    suggest := fun _ => some (0, []),
    searchTitles := fun _ _ => none,
    argsortNeg := fun s => List.range s.length }

/-- Chunk record of `P1` in the fallback witness. -/
def recP1b : ChunkRec :=
  ⟨["alpha beta"], [("P1 — Lead", "/P1", "alpha beta")], [[1]]⟩

/-- State after the suggestion stage of the fallback witness. -/
def st1y : St := { st0 with suggestC := ⟨128, [("q", [])]⟩ }

/-- State after the full-text pass of the fallback witness. -/
def st2y : St := { st1y with chunkC := ⟨64, [("P1", recP1b)]⟩, ftCalls := 1 }

/-- Score predicate of the output contract: a cosine value in `[-1, 1]` or
the uniform fallback placeholder 1. -/
def ScoreOk (s : ℚ) : Prop := (-1 ≤ s ∧ s ≤ 1) ∨ s = 1

/-- Unit-norm invariant of the chunk cache. -/
def UnitChunkC (c : LRU ChunkRec) : Prop :=
  ∀ pr ∈ c.entries, ∀ v ∈ pr.2.emb, dotq v v = 1

/-- Output contract for one result list, unconditional part: at most `k`
items with consecutive positional ids from 0. -/
def ItemsShape (k : Nat) (items : List RetrievalItem) : Prop :=
  items.length ≤ k ∧
    ∀ j (h : j < items.length), (items.get ⟨j, h⟩).id = j

/-- Output contract for the scores: every score is a cosine in `[-1, 1]`
or the placeholder 1. -/
def ScoresOk (items : List RetrievalItem) : Prop :=
  ∀ it ∈ items, ScoreOk it.score

theorem chunksAux_step (n size ov fuel start : Nat) (h : start < n) :
    chunksAux n size ov (fuel + 1) start =
      if min n (start + size) = n then [(start, min n (start + size))]
      else (start, min n (start + size)) ::
        chunksAux n size ov fuel (min n (start + size) - ov) := by
  simp only [chunksAux, if_pos h]

theorem chunksAux_head (n size ov fuel start : Nat) (h : start < n) (hf : 0 < fuel) :
    ∃ t, chunksAux n size ov fuel start = (start, min n (start + size)) :: t := by
  cases fuel with
  | zero => omega
  | succ f =>
    rw [chunksAux_step _ _ _ _ _ h]
    by_cases he : min n (start + size) = n
    · exact ⟨[], by rw [if_pos he]⟩
    · exact ⟨_, by rw [if_neg he]⟩

theorem chunksAux_last (size ov : Nat) (hov : ov < size) (n : Nat) :
    ∀ fuel start, start < n → n - start ≤ fuel →
      ∃ t s2, chunksAux n size ov fuel start = t ++ [(s2, n)] := by
  intro fuel
  induction fuel with
  | zero => intro start h hf; omega
  | succ f ih =>
    intro start h hf
    rw [chunksAux_step _ _ _ _ _ h]
    by_cases he : min n (start + size) = n
    · exact ⟨[], start, by rw [if_pos he, he]; rfl⟩
    · have h1 : start + size < n := by omega
      have h2 : min n (start + size) = start + size := by omega
      rw [if_neg he, h2]
      obtain ⟨t, s2, ht⟩ := ih (start + size - ov) (by omega) (by omega)
      exact ⟨(start, start + size) :: t, s2, by rw [ht]; rfl⟩

theorem chunksAux_cover (size ov : Nat) (hov : ov < size) (n : Nat) :
    ∀ fuel start, start < n → n - start ≤ fuel →
      ∀ i, start ≤ i → i < n →
        ∃ w ∈ chunksAux n size ov fuel start, w.1 ≤ i ∧ i < w.2 := by
  intro fuel
  induction fuel with
  | zero => intro start h hf; omega
  | succ f ih =>
    intro start h hf i hi1 hi2
    rw [chunksAux_step _ _ _ _ _ h]
    by_cases he : min n (start + size) = n
    · rw [if_pos he]
      exact ⟨(start, min n (start + size)), List.mem_singleton.mpr rfl, hi1, by omega⟩
    · have h1 : start + size < n := by omega
      have h2 : min n (start + size) = start + size := by omega
      rw [if_neg he]
      by_cases hlt : i < start + size
      · exact ⟨(start, min n (start + size)), List.mem_cons_self _ _, hi1, by omega⟩
      · obtain ⟨w, hw, hw1, hw2⟩ :=
          ih (min n (start + size) - ov) (by omega) (by omega) i (by omega) hi2
        exact ⟨w, List.mem_cons_of_mem _ hw, hw1, hw2⟩

theorem chunksAux_chain (size ov : Nat) (hov : ov < size) (n : Nat) :
    ∀ fuel start, start < n → n - start ≤ fuel →
      List.Chain' (fun w1 w2 => min w1.2 w2.2 - max w1.1 w2.1 = ov)
        (chunksAux n size ov fuel start) := by
  intro fuel
  induction fuel with
  | zero => intro start h hf; omega
  | succ f ih =>
    intro start h hf
    rw [chunksAux_step _ _ _ _ _ h]
    by_cases he : min n (start + size) = n
    · rw [if_pos he]
      exact List.chain'_singleton _
    · have h1 : start + size < n := by omega
      have h2 : min n (start + size) = start + size := by omega
      rw [if_neg he]
      have hf2 : 0 < f := by omega
      obtain ⟨t, ht⟩ :=
        chunksAux_head n size ov f (min n (start + size) - ov) (by omega) hf2
      rw [ht, List.chain'_cons]
      refine ⟨by simp only []; omega, ?_⟩
      rw [← ht]
      exact ih (min n (start + size) - ov) (by omega) (by omega)

set_option maxRecDepth 20000 in
/-- C3.  Sliding-window chunking of `_chunks`: the 500-word section with
chunk size 160 and overlap 20 yields exactly the windows starting at
0, 140, 280, 420 (the last one ending at 500); and for every non-empty word
list with `overlap < size`, the yielded windows cover every word index and
every pair of consecutive windows shares exactly `overlap` word indices. -/
theorem chunks_sliding_window_spec :
    chunksList (List.replicate 500 "w") 160 20 =
        [(0, 160), (140, 300), (280, 440), (420, 500)] ∧
      ∀ (words : List String) (size ov : Nat), words ≠ [] → ov < size →
        (∀ i < words.length, ∃ w ∈ chunksList words size ov, w.1 ≤ i ∧ i < w.2) ∧
          List.Chain' (fun w1 w2 => min w1.2 w2.2 - max w1.1 w2.1 = ov)
            (chunksList words size ov) := by
  refine ⟨by rfl, ?_⟩
  intro words size ov hne hov
  have hn : 0 < words.length := List.length_pos.mpr hne
  exact ⟨fun i hi =>
      chunksAux_cover size ov hov words.length (words.length + 1) 0 hn (by omega) i
        (Nat.zero_le _) hi,
    chunksAux_chain size ov hov words.length (words.length + 1) 0 hn (by omega)⟩

theorem chunks_sliding_window_spec_witness :
    (∀ i < (["a", "b", "c"] : List String).length,
        ∃ w ∈ chunksList ["a", "b", "c"] 2 1, w.1 ≤ i ∧ i < w.2) ∧
      List.Chain' (fun w1 w2 => min w1.2 w2.2 - max w1.1 w2.1 = 1)
        (chunksList ["a", "b", "c"] 2 1) :=
  chunks_sliding_window_spec.2 ["a", "b", "c"] 2 1 (by decide) (by decide)

/-- C10.  Termination envelope of the `_chunks` generator: with
`0 < size` and `overlap < size` the generator yields finitely many windows,
the first starting at index 0 and the last ending exactly at the word-list
length; and the precondition is necessary — with `overlap ≥ size` and a
list longer than `size`, the loop state never advances past `end - overlap`,
so the unfolding of the loop yields one window per unit of fuel, i.e. the
Python generator yields windows forever. -/
theorem chunks_generator_termination :
    (∀ (words : List String) (size ov : Nat), 0 < size → ov < size → words ≠ [] →
        (∃ t, chunksList words size ov = (0, min words.length size) :: t) ∧
          ∃ t s2, chunksList words size ov = t ++ [(s2, words.length)]) ∧
      ∀ n size ov : Nat, size ≤ ov → size < n →
        ∀ fuel, (chunksAux n size ov fuel 0).length = fuel := by
  constructor
  · intro words size ov hs hov hne
    have hn : 0 < words.length := List.length_pos.mpr hne
    constructor
    · simpa using chunksAux_head words.length size ov (words.length + 1) 0 hn (by omega)
    · exact chunksAux_last size ov hov words.length (words.length + 1) 0 hn (by omega)
  · intro n size ov hov hn fuel
    induction fuel with
    | zero => rfl
    | succ f ih =>
      rw [chunksAux_step _ _ _ _ _ (by omega : 0 < n)]
      rw [if_neg (by omega)]
      have h2 : min n (0 + size) - ov = 0 := by omega
      rw [h2, List.length_cons, ih]

theorem chunks_generator_termination_witness :
    ((∃ t, chunksList ["a", "b", "c"] 2 1 =
          (0, min (["a", "b", "c"] : List String).length 2) :: t) ∧
        ∃ t s2, chunksList ["a", "b", "c"] 2 1 =
          t ++ [(s2, (["a", "b", "c"] : List String).length)]) ∧
      (chunksAux 3 1 2 5 0).length = 5 :=
  ⟨chunks_generator_termination.1 ["a", "b", "c"] 2 1 (by decide) (by decide) (by decide),
    chunks_generator_termination.2 3 1 2 (by decide) (by decide) 5⟩

theorem windowLoop_len_eq (MAXC : Nat) (heading url : String) (words : List String) :
    ∀ ws ts ms, ts.length = ms.length →
      (windowLoop MAXC heading url words ws (ts, ms)).1.length =
        (windowLoop MAXC heading url words ws (ts, ms)).2.length := by
  intro ws
  induction ws with
  | nil => intro ts ms h; simpa [windowLoop] using h
  | cons w rest ih =>
    intro ts ms h
    simp only [windowLoop]
    split
    · simp [h]
    · exact ih _ _ (by simp [h])

theorem windowLoop_le (MAXC : Nat) (heading url : String) (words : List String) :
    ∀ ws ts ms, ts.length < MAXC →
      (windowLoop MAXC heading url words ws (ts, ms)).1.length ≤ MAXC := by
  intro ws
  induction ws with
  | nil => intro ts ms h; simpa [windowLoop] using Nat.le_of_lt h
  | cons w rest ih =>
    intro ts ms h
    simp only [windowLoop]
    split
    · simp only [List.length_append, List.length_cons, List.length_nil]
      omega
    · rename_i hc
      refine ih _ _ ?_
      simp only [List.length_append, List.length_cons, List.length_nil] at hc ⊢
      omega

theorem sectionLoop_len_eq (CT CO MAXC : Nat) (title url : String) :
    ∀ secs ts ms, ts.length = ms.length →
      (sectionLoop CT CO MAXC title url secs (ts, ms)).1.length =
        (sectionLoop CT CO MAXC title url secs (ts, ms)).2.length := by
  intro secs
  induction secs with
  | nil => intro ts ms h; simpa [sectionLoop] using h
  | cons sec rest ih =>
    intro ts ms h
    obtain ⟨secTitle, secText⟩ := sec
    simp only [sectionLoop]
    split
    · exact ih _ _ h
    · split
      · split
        · exact windowLoop_len_eq _ _ _ _ _ _ _ h
        · exact ih _ _ (windowLoop_len_eq _ _ _ _ _ _ _ h)
      · split
        · simp [h]
        · exact ih _ _ (by simp [h])

theorem sectionLoop_le (CT CO MAXC : Nat) (title url : String) :
    ∀ secs ts ms, ts.length < MAXC →
      (sectionLoop CT CO MAXC title url secs (ts, ms)).1.length ≤ MAXC := by
  intro secs
  induction secs with
  | nil => intro ts ms h; simpa [sectionLoop] using Nat.le_of_lt h
  | cons sec rest ih =>
    intro ts ms h
    obtain ⟨secTitle, secText⟩ := sec
    simp only [sectionLoop]
    split
    · exact ih _ _ h
    · split
      · split
        · exact windowLoop_le _ _ _ _ _ _ _ h
        · rename_i hc
          exact ih _ _ (Nat.not_le.mp hc)
      · split
        · dsimp only
          simp only [List.length_append, List.length_cons, List.length_nil]
          omega
        · rename_i hc
          refine ih _ _ ?_
          simp only [List.length_append, List.length_cons, List.length_nil] at hc ⊢
          omega

/-- C6.  Per-page extraction postconditions of `_extract_chunks`: the chunk
text and chunk metadata lists are parallel (equal length), hold at most
`MAX_CHUNKS` elements (for a positive configured cap), and a mimetype that
neither starts with `text/` nor contains `html` yields two empty lists. -/
theorem extract_chunks_postconditions (cfg : Config) (e : Entry)
    (hmax : 0 < cfg.MAX_CHUNKS) (hov : cfg.CHUNK_OVERLAP < cfg.CHUNK_TOKENS) :
    (extract_chunks cfg e).1.length = (extract_chunks cfg e).2.length ∧
      (extract_chunks cfg e).1.length ≤ cfg.MAX_CHUNKS ∧
      (mimeTextual e.mimetype = false → extract_chunks cfg e = ([], [])) := by
  unfold extract_chunks
  cases hm : mimeTextual e.mimetype
  · exact ⟨by simp, by simp, fun _ => by simp⟩
  · rw [if_pos rfl]
    refine ⟨sectionLoop_len_eq _ _ _ _ _ _ _ _ rfl,
      sectionLoop_le _ _ _ _ _ _ _ _ (by simpa using hmax), fun hF => ?_⟩
    simp at hF

theorem extract_chunks_postconditions_witness :
    (extract_chunks cfg0 entry0).1.length = (extract_chunks cfg0 entry0).2.length ∧
      (extract_chunks cfg0 entry0).1.length ≤ cfg0.MAX_CHUNKS ∧
      (mimeTextual entry0.mimetype = false → extract_chunks cfg0 entry0 = ([], [])) :=
  extract_chunks_postconditions cfg0 entry0 (by decide) (by decide)

/-- C5 (counterexample).  With a suggestion engine that returns the same
path `"A"` for every candidate and `SUGGESTION_LIMIT = 2`, the accumulation
loop of `_title_suggest_paths` appends the duplicate path instead of
skipping it: it gathers `["A", "A"]` (only one distinct path), counts the
duplicate toward the limit, and stops before issuing the third candidate —
refuting the claim that already-accumulated paths are skipped and that the
loop stops only at `SUGGESTION_LIMIT` distinct paths. -/
theorem suggest_dup_counterexample :
    (suggestAccum (fun _ => some (1, ["A"])) 2 ["x", "y", "z"] []).1 = ["A", "A"] ∧
      ¬ (suggestAccum (fun _ => some (1, ["A"])) 2 ["x", "y", "z"] []).1.Nodup ∧
      (suggestAccum (fun _ => some (1, ["A"])) 2 ["x", "y", "z"] []).2 = ["x", "y"] := by
  exact ⟨rfl, by decide, rfl⟩

theorem appendUntil_le (L : Nat) : ∀ r out : List String,
    out.length < L → (appendUntil L r out).length ≤ L := by
  intro r
  induction r with
  | nil => intro out h; exact Nat.le_of_lt h
  | cons p ps ih =>
    intro out h
    simp only [appendUntil]
    split
    · simp only [List.length_append, List.length_cons, List.length_nil]
      omega
    · rename_i hc
      refine ih _ ?_
      simp only [List.length_append, List.length_cons, List.length_nil] at hc ⊢
      omega

theorem suggestAccum_inv (sugg : String → Option (Nat × List String)) (L : Nat) :
    ∀ cands out, out.length < L →
      ((suggestAccum sugg L cands out).1.length ≤ L) ∧
        (∃ t, cands = (suggestAccum sugg L cands out).2 ++ t) ∧
        ((suggestAccum sugg L cands out).2 ≠ cands →
          (suggestAccum sugg L cands out).1.length = L) := by
  intro cands
  induction cands with
  | nil =>
    intro out h
    exact ⟨Nat.le_of_lt h, ⟨[], rfl⟩, fun hne => absurd rfl hne⟩
  | cons c cs ih =>
    intro out h
    cases hs : sugg c with
    | none =>
      simp only [suggestAccum, hs]
      obtain ⟨h1, ⟨t, ht⟩, h3⟩ := ih out h
      refine ⟨h1, ⟨t, by rw [List.cons_append, ← ht]⟩, fun hne => ?_⟩
      refine h3 fun heq => hne ?_
      rw [heq]
    | some r =>
      simp only [suggestAccum, hs]
      split
      · rename_i hfull
        refine ⟨appendUntil_le L _ out h, ⟨cs, rfl⟩, fun _ => ?_⟩
        exact Nat.le_antisymm (appendUntil_le L _ out h) hfull
      · rename_i hnotfull
        have h2 : (appendUntil L (r.2.take (min L r.1)) out).length < L := by omega
        obtain ⟨h1, ⟨t, ht⟩, h3⟩ := ih _ h2
        refine ⟨h1, ⟨t, by dsimp only; rw [List.cons_append, ← ht]⟩, fun hne => ?_⟩
        refine h3 fun heq => hne ?_
        rw [heq]

/-- C5 (amended).  The suggestion-accumulation loop of
`_title_suggest_paths` appends returned paths without skipping duplicates;
it stops exactly when the accumulated list (duplicates included) reaches
`SUGGESTION_LIMIT` entries: the output never exceeds the limit, the issued
candidates are a leading segment of the candidate list, and whenever some
candidate was not issued the accumulated count equals the limit exactly. -/
theorem suggest_accum_amended (sugg : String → Option (Nat × List String)) (L : Nat)
    (cands : List String) (hL : 0 < L) :
    ((suggestAccum sugg L cands []).1.length ≤ L) ∧
      (∃ t, cands = (suggestAccum sugg L cands []).2 ++ t) ∧
      ((suggestAccum sugg L cands []).2 ≠ cands →
        (suggestAccum sugg L cands []).1.length = L) :=
  suggestAccum_inv sugg L cands [] (by simpa using hL)

theorem suggest_accum_amended_witness :
    ((suggestAccum (fun _ => some (1, ["A"])) 2 ["x", "y", "z"] []).1.length ≤ 2) ∧
      (∃ t, ["x", "y", "z"] = (suggestAccum (fun _ => some (1, ["A"])) 2 ["x", "y", "z"] []).2 ++ t) ∧
      ((suggestAccum (fun _ => some (1, ["A"])) 2 ["x", "y", "z"] []).2 ≠ ["x", "y", "z"] →
        (suggestAccum (fun _ => some (1, ["A"])) 2 ["x", "y", "z"] []).1.length = 2) :=
  suggest_accum_amended (fun _ => some (1, ["A"])) 2 ["x", "y", "z"] (by decide)

theorem tsp_state (env : Env) (cfg : Config) (q : String) (σ : St) :
    (title_suggest_paths env cfg q σ).2.chunkC = σ.chunkC ∧
      (title_suggest_paths env cfg q σ).2.leadC = σ.leadC ∧
      (title_suggest_paths env cfg q σ).2.ftCalls = σ.ftCalls := by
  unfold title_suggest_paths
  cases hg : (σ.suggestC.get (normalizeQuery q)).1 <;> simp [hg]

theorem scorePages_state (env : Env) (qv : Vec) :
    ∀ ps acc σ, ((scorePages env qv ps acc σ).2.chunkC = σ.chunkC ∧
      (scorePages env qv ps acc σ).2.suggestC = σ.suggestC ∧
      (scorePages env qv ps acc σ).2.ftCalls = σ.ftCalls) := by
  intro ps
  induction ps with
  | nil => intro acc σ; exact ⟨rfl, rfl, rfl⟩
  | cons p ps ih =>
    intro acc σ
    simp only [scorePages]
    cases hg : (σ.leadC.get p).1 with
    | some r => exact ih _ _
    | none =>
      cases he : env.getEntry p with
      | none => exact ih _ _
      | some e =>
        dsimp only
        split
        · exact ih _ _
        · cases hen : env.encode ((extract_lead e).1 ++ ". " ++ (extract_lead e).2) with
          | none => exact ⟨rfl, rfl, rfl⟩
          | some lemb => exact ih _ _

theorem accum_state (env : Env) (cfg : Config) :
    ∀ ps acc σ, ((accumChunksOver env cfg ps acc σ).2.suggestC = σ.suggestC ∧
      (accumChunksOver env cfg ps acc σ).2.leadC = σ.leadC ∧
      (accumChunksOver env cfg ps acc σ).2.ftCalls = σ.ftCalls) := by
  intro ps
  induction ps with
  | nil => intro acc σ; exact ⟨rfl, rfl, rfl⟩
  | cons p ps ih =>
    intro acc σ
    simp only [accumChunksOver]
    split
    · exact ⟨rfl, rfl, rfl⟩
    · cases hg : (σ.chunkC.get p).1 with
      | some r =>
        dsimp only
        split
        · exact ih _ _
        · exact ih _ _
      | none =>
        cases he : env.getEntry p with
        | none => exact ih _ _
        | some e =>
          dsimp only
          split
          · exact ih _ _
          · cases hen : encodeList env (extract_chunks cfg e).1 with
            | none => exact ⟨rfl, rfl, rfl⟩
            | some emb => exact ih _ _

theorem titleStage_state (env : Env) (cfg : Config) (query : String) (top_k : Nat)
    (tp : List String) (σ : St) :
    (titleStage env cfg query top_k tp σ).2.suggestC = σ.suggestC ∧
      (titleStage env cfg query top_k tp σ).2.ftCalls = σ.ftCalls := by
  unfold titleStage
  split
  · exact ⟨rfl, rfl⟩
  · cases he : env.encode query with
    | none => exact ⟨rfl, rfl⟩
    | some qv =>
      dsimp only
      rcases hsp : scorePages env qv tp [] σ with ⟨o, σ1⟩
      have hs1 : σ1.suggestC = σ.suggestC := by
        have := (scorePages_state env qv tp [] σ).2.1
        rw [hsp] at this
        exact this
      have hs2 : σ1.ftCalls = σ.ftCalls := by
        have := (scorePages_state env qv tp [] σ).2.2
        rw [hsp] at this
        exact this
      cases o with
      | none => exact ⟨hs1, hs2⟩
      | some ps =>
        dsimp only
        split
        · exact ⟨hs1, hs2⟩
        · rcases hac : accumChunksOver env cfg
              (List.map (fun x => x.2.1) ((sortDescScores ps).take (max 1 cfg.TOP_PAGES)))
              ([], [], []) σ1 with ⟨o2, σ2⟩
          have ha1 : σ2.suggestC = σ1.suggestC := by
            have := (accum_state env cfg
              (List.map (fun x => x.2.1) ((sortDescScores ps).take (max 1 cfg.TOP_PAGES)))
              ([], [], []) σ1).1
            rw [hac] at this
            exact this
          have ha2 : σ2.ftCalls = σ1.ftCalls := by
            have := (accum_state env cfg
              (List.map (fun x => x.2.1) ((sortDescScores ps).take (max 1 cfg.TOP_PAGES)))
              ([], [], []) σ1).2.2
            rw [hac] at this
            exact this
          rw [hac]
          cases o2 with
          | none => exact ⟨ha1.trans hs1, ha2.trans hs2⟩
          | some acc =>
            dsimp only
            split
            · exact ⟨ha1.trans hs1, ha2.trans hs2⟩
            · split
              · exact ⟨ha1.trans hs1, ha2.trans hs2⟩
              · exact ⟨ha1.trans hs1, ha2.trans hs2⟩

theorem recallPaths_single (env : Env) (w l : Nat) (q : String) (acc : List String) :
    (recallPaths env w l [q] acc).2 = 1 := by
  simp only [recallPaths]
  cases hf : env.ftSearch q w with
  | none => simp [recallPaths]
  | some res =>
    dsimp only
    split
    · rfl
    · simp [recallPaths]

theorem recall_state (env : Env) (cfg : Config) (queries : List String)
    (w l : Nat) (σ : St) :
    ((recall_and_chunks env cfg queries w l σ).2).suggestC = σ.suggestC ∧
      ((recall_and_chunks env cfg queries w l σ).2).leadC = σ.leadC ∧
      ((recall_and_chunks env cfg queries w l σ).2).ftCalls =
        σ.ftCalls + (recallPaths env w l queries []).2 := by
  unfold recall_and_chunks
  exact (accum_state env cfg _ _ _)

/-- C1.  Early-exit guarantee: when the title suggester yields candidates,
the page reranker scores at least one page, chunk accumulation for the
top-ranked pages is non-empty, and the best chunk similarity meets
`TITLE_SIM_EXIT`, then `search` returns the top-k ranked accumulated chunks
from the title stage and the full-text `Searcher` collaborator is never
invoked (the call counter is unchanged). -/
theorem search_early_exit_no_fulltext (env : Env) (cfg : Config) (σ : St)
    (q : String) (k : Nat) (tp : List String) (qv : Vec)
    (ps : List (ℚ × String × String))
    (acc : List String × List ChunkMeta × List Vec) (σ1 σ2 σ3 : St)
    (H1 : title_suggest_paths env cfg q σ = (some tp, σ1))
    (H2 : tp ≠ [])
    (H3 : env.encode q = some qv)
    (H4 : scorePages env qv tp [] σ1 = (some ps, σ2))
    (H5 : ps ≠ [])
    (H6 : accumChunksOver env cfg
        (List.map (fun x => x.2.1) ((sortDescScores ps).take (max 1 cfg.TOP_PAGES)))
        ([], [], []) σ2 = (some acc, σ3))
    (H7 : acc.1 ≠ [])
    (H8 : cfg.TITLE_SIM_EXIT ≤ listMaxD (List.map (fun v => dotq v qv) acc.2.2) 0) :
    search env cfg q k σ =
      (some ((mkItems
          ((env.argsortNeg (List.map (fun v => dotq v qv) acc.2.2)).take (max k 1))
          (List.map (fun v => dotq v qv) acc.2.2) acc.2.1).take k), σ3) ∧
      σ3.ftCalls = σ.ftCalls := by
  have hts : titleStage env cfg q k tp σ1 =
      (some (some ((mkItems
        ((env.argsortNeg (List.map (fun v => dotq v qv) acc.2.2)).take (max k 1))
        (List.map (fun v => dotq v qv) acc.2.2) acc.2.1).take k)), σ3) := by
    unfold titleStage
    rw [if_neg (by simpa [List.isEmpty_iff] using H2), H3]
    dsimp only
    rw [H4]
    dsimp only
    rw [if_neg (by simpa [List.isEmpty_iff] using H5)]
    rw [H6]
    dsimp only
    rw [if_neg (by simpa [List.isEmpty_iff] using H7), if_pos H8]
  have hftc : σ3.ftCalls = σ.ftCalls := by
    have h6 := (accum_state env cfg
      (List.map (fun x => x.2.1) ((sortDescScores ps).take (max 1 cfg.TOP_PAGES)))
      ([], [], []) σ2).2.2
    rw [H6] at h6
    have h4 := (scorePages_state env qv tp [] σ1).2.2
    rw [H4] at h4
    have h1 := (tsp_state env cfg q σ).2.2
    rw [H1] at h1
    exact (h6.trans h4).trans h1
  constructor
  · unfold search
    rw [H1]
    dsimp only
    rw [hts]
  · exact hftc

unseal Rat.mul Rat.add in
theorem search_early_exit_no_fulltext_witness :
    search env1 cfg0 "hello" 6 st0 =
      (some ((mkItems
          ((env1.argsortNeg (List.map (fun v => dotq v [1]) [[1]])).take (max 6 1))
          (List.map (fun v => dotq v [1]) [[1]])
          [("Foo — Lead", "/A/Foo", "hello world")]).take 6), st3w) ∧
      st3w.ftCalls = st0.ftCalls :=
  search_early_exit_no_fulltext env1 cfg0 st0 "hello" 6 ["A/Foo"] [1]
    [(1, "A/Foo", "Foo")]
    (["hello world"], [("Foo — Lead", "/A/Foo", "hello world")], [[1]])
    st1w st2w st3w rfl (by decide) rfl rfl (by decide) rfl (by decide) (by decide)


/-- C2.  Widening: when the pipeline reaches the full-text stage, widening
is enabled, and the best first-pass similarity is strictly below
`SIM_THRESHOLD`, `search` performs exactly one retry of the recall — its
`wanted` and recall-limit arguments are the originals
(`max 200 (MAX_ARTICLES * 10)` and `RECALL_LIMIT`) each multiplied by
`SECOND_PASS_FACTOR` (with Python's `int(...)` conversion) — and the final
ranking is built from the retry's chunk texts, metadata and embeddings
alone: the first pass's are replaced, not merged. -/
theorem search_second_pass_widening (env : Env) (cfg : Config) (σ : St)
    (q : String) (k : Nat) (tp : List String) (σ1 σ2 : St)
    (ct : List String) (cm : List ChunkMeta) (XV : List Vec) (σ3 : St) (qv : Vec)
    (acc2 : List String × List ChunkMeta × List Vec) (σ4 : St)
    (H1 : title_suggest_paths env cfg q σ = (some tp, σ1))
    (H2 : titleStage env cfg q k tp σ1 = (some none, σ2))
    (H3 : recall_and_chunks env cfg [q] (max 200 (cfg.MAX_ARTICLES * 10))
        cfg.RECALL_LIMIT σ2 = (some (ct, cm, XV), σ3))
    (H4 : ct ≠ [])
    (H5 : env.encode q = some qv)
    (H6 : cfg.SECOND_PASS_ENABLE = true)
    (H7 : listMaxD (List.map (fun v => dotq v qv) XV) 0 < cfg.SIM_THRESHOLD)
    (H8 : recall_and_chunks env cfg [q]
        ((⌊((max 200 (cfg.MAX_ARTICLES * 10) : Nat) : ℚ) * cfg.SECOND_PASS_FACTOR⌋).toNat)
        ((⌊(cfg.RECALL_LIMIT : ℚ) * cfg.SECOND_PASS_FACTOR⌋).toNat) σ3 =
        (some acc2, σ4))
    (H9 : acc2.1 ≠ []) :
    search env cfg q k σ =
      (some ((mkItems
          ((env.argsortNeg (List.map (fun v => dotq v qv) acc2.2.2)).take (max k 1))
          (List.map (fun v => dotq v qv) acc2.2.2) acc2.2.1).take k), σ4) ∧
      σ4.ftCalls = σ.ftCalls + 2 := by
  have hstage : stage2rank env cfg q k (max 200 (cfg.MAX_ARTICLES * 10)) ct cm XV σ3 =
      (some (TryRes.ranked
        ((env.argsortNeg (List.map (fun v => dotq v qv) acc2.2.2)).take (max k 1))
        (List.map (fun v => dotq v qv) acc2.2.2) acc2.1 acc2.2.1), σ4) := by
    unfold stage2rank
    rw [H5]
    dsimp only
    rw [if_pos (by rw [H6]; simpa using H7)]
    rw [H8]
    dsimp only
    rw [if_neg (by simpa [List.isEmpty_iff] using H9)]
  have hftc : σ4.ftCalls = σ.ftCalls + 2 := by
    have h8 : σ4.ftCalls = σ3.ftCalls + 1 := by
      have := (recall_state env cfg [q]
        ((⌊((max 200 (cfg.MAX_ARTICLES * 10) : Nat) : ℚ) * cfg.SECOND_PASS_FACTOR⌋).toNat)
        ((⌊(cfg.RECALL_LIMIT : ℚ) * cfg.SECOND_PASS_FACTOR⌋).toNat) σ3).2.2
      rw [H8, recallPaths_single] at this
      simpa using this
    have h3 : σ3.ftCalls = σ2.ftCalls + 1 := by
      have := (recall_state env cfg [q] (max 200 (cfg.MAX_ARTICLES * 10))
        cfg.RECALL_LIMIT σ2).2.2
      rw [H3, recallPaths_single] at this
      simpa using this
    have h2 : σ2.ftCalls = σ1.ftCalls := by
      have := (titleStage_state env cfg q k tp σ1).2
      rw [H2] at this
      simpa using this
    have h1 : σ1.ftCalls = σ.ftCalls := by
      have := (tsp_state env cfg q σ).2.2
      rw [H1] at this
      simpa using this
    omega
  refine ⟨?_, hftc⟩
  unfold search
  rw [H1]
  dsimp only
  rw [H2]
  dsimp only
  rw [H3]
  dsimp only
  rw [if_neg (by simpa [List.isEmpty_iff] using H4)]
  rw [hstage]

unseal Rat.mul Rat.add in
theorem search_second_pass_widening_witness :
    search env2 cfg0 "q" 6 st0 =
      (some ((mkItems
          ((env2.argsortNeg (List.map (fun v => dotq v [1, 0]) [[0, 1], [0, 1]])).take (max 6 1))
          (List.map (fun v => dotq v [1, 0]) [[0, 1], [0, 1]])
          [("P1 — Lead", "/P1", "alpha beta"), ("P2 — Lead", "/P2", "gamma delta")]).take 6),
        st4x) ∧
      st4x.ftCalls = st0.ftCalls + 2 :=
  search_second_pass_widening env2 cfg0 st0 "q" 6 [] st1x st1x
    ["alpha beta"] [("P1 — Lead", "/P1", "alpha beta")] [[0, 1]] st3x [1, 0]
    (["alpha beta", "gamma delta"],
      [("P1 — Lead", "/P1", "alpha beta"), ("P2 — Lead", "/P2", "gamma delta")],
      [[0, 1], [0, 1]])
    st4x rfl rfl rfl (by decide) rfl rfl (by decide) rfl (by decide)


theorem mkItemsFrom_length (sc : List ℚ) (cm : List ChunkMeta) :
    ∀ top s, (mkItemsFrom sc cm s top).length = top.length := by
  intro top
  induction top with
  | nil => intro s; rfl
  | cons idx rest ih => intro s; simp only [mkItemsFrom, List.length_cons, ih]

theorem mkItemsFrom_range' (sc : List ℚ) (cm : List ChunkMeta) :
    ∀ cnt s, mkItemsFrom sc cm s (List.range' s cnt) =
      (List.range' s cnt).map fun i =>
        { id := i, title := (cm.getD i ("", "", "")).1, url := (cm.getD i ("", "", "")).2.1,
          snippet := (cm.getD i ("", "", "")).2.2,
          score := sc.getD i 0 : RetrievalItem } := by
  intro cnt
  induction cnt with
  | zero => intro s; rfl
  | succ n ih =>
    intro s
    simp only [List.range', mkItemsFrom, List.map_cons]
    rw [ih (s + 1)]

theorem getD_replicate_one : ∀ (n i : Nat), i < n → (List.replicate n (1 : ℚ)).getD i 0 = 1 := by
  intro n
  induction n with
  | zero => intro i h; omega
  | succ m ih =>
    intro i h
    cases i with
    | zero => rfl
    | succ j => exact ih j (by omega)

/-- C7.  Degenerate fallback: when the pipeline reaches the full-text stage
with a non-empty chunk set and embedding the query fails there, `search`
does not raise — it returns the first `min (number of chunks) topK` chunks
in extraction order, each carrying the uniform placeholder score 1. -/
theorem search_degenerate_fallback (env : Env) (cfg : Config) (σ : St)
    (q : String) (k : Nat) (σ1 : St) (ct : List String) (cm : List ChunkMeta)
    (XV : List Vec) (σ2 : St)
    (H1 : title_suggest_paths env cfg q σ = (some [], σ1))
    (H2 : recall_and_chunks env cfg [q] (max 200 (cfg.MAX_ARTICLES * 10))
        cfg.RECALL_LIMIT σ1 = (some (ct, cm, XV), σ2))
    (H3 : ct ≠ [])
    (H4 : env.encode q = none) :
    search env cfg q k σ =
      (some ((List.range (min ct.length k)).map fun i =>
        { id := i, title := (cm.getD i ("", "", "")).1,
          url := (cm.getD i ("", "", "")).2.1,
          snippet := (cm.getD i ("", "", "")).2.2, score := 1 : RetrievalItem }), σ2) := by
  have hitems : (mkItems (List.range (min ct.length k)) (List.replicate ct.length 1) cm).take k =
      (List.range (min ct.length k)).map fun i =>
        { id := i, title := (cm.getD i ("", "", "")).1,
          url := (cm.getD i ("", "", "")).2.1,
          snippet := (cm.getD i ("", "", "")).2.2, score := 1 : RetrievalItem } := by
    have hlen : (mkItems (List.range (min ct.length k)) (List.replicate ct.length 1) cm).length
        ≤ k := by
      rw [mkItems, mkItemsFrom_length, List.length_range]
      omega
    rw [List.take_of_length_le hlen, mkItems, List.range_eq_range',
      mkItemsFrom_range' (List.replicate ct.length 1) cm (min ct.length k) 0,
      ← List.range_eq_range']
    refine List.map_congr_left fun i hi => ?_
    have hilt : i < ct.length := by
      have := List.mem_range.mp hi
      omega
    rw [getD_replicate_one ct.length i hilt]
  have hstage : stage2rank env cfg q k (max 200 (cfg.MAX_ARTICLES * 10)) ct cm XV σ2 =
      (some (TryRes.ranked (List.range (min ct.length k))
        (List.replicate ct.length 1) ct cm), σ2) := by
    unfold stage2rank
    rw [H4]
  unfold search
  rw [H1]
  dsimp only
  rw [show titleStage env cfg q k [] σ1 = (some none, σ1) from rfl]
  dsimp only
  rw [H2]
  dsimp only
  rw [if_neg (by simpa [List.isEmpty_iff] using H3)]
  rw [hstage]
  dsimp only
  rw [hitems]

unseal Rat.mul Rat.add in
theorem search_degenerate_fallback_witness :
    search env3 cfg0 "q" 6 st0 =
      (some ((List.range (min (["alpha beta"] : List String).length 6)).map fun i =>
        { id := i,
          title := (([("P1 — Lead", "/P1", "alpha beta")] : List ChunkMeta).getD i ("", "", "")).1,
          url := (([("P1 — Lead", "/P1", "alpha beta")] : List ChunkMeta).getD i ("", "", "")).2.1,
          snippet := (([("P1 — Lead", "/P1", "alpha beta")] : List ChunkMeta).getD i ("", "", "")).2.2,
          score := 1 : RetrievalItem }), st2y) :=
  search_degenerate_fallback env3 cfg0 st0 "q" 6 st1y
    ["alpha beta"] [("P1 — Lead", "/P1", "alpha beta")] [[1]] st2y
    rfl rfl (by decide) rfl


theorem dotq_eq_sum (u : Vec) : ∀ v : Vec,
    dotq u v = ∑ i in Finset.range (min u.length v.length), u.getD i 0 * v.getD i 0 := by
  induction u with
  | nil => intro v; simp [dotq]
  | cons a u ih =>
    intro v
    cases v with
    | nil => simp [dotq]
    | cons b v =>
      have : min (a :: u).length (b :: v).length = min u.length v.length + 1 := by
        simp only [List.length_cons]
        omega
      rw [this, Finset.sum_range_succ']
      simp only [List.getD_cons_succ, List.getD_cons_zero]
      have hd : dotq (a :: u) (b :: v) = a * b + dotq u v := by
        simp [dotq]
      rw [hd, ih v]
      ring

theorem dotq_self_nonneg_sum (u : Vec) (m : Nat) (hm : m ≤ u.length) :
    ∑ i in Finset.range m, u.getD i 0 ^ 2 ≤ dotq u u := by
  rw [dotq_eq_sum u u, Nat.min_self]
  calc ∑ i in Finset.range m, u.getD i 0 ^ 2
      ≤ ∑ i in Finset.range u.length, u.getD i 0 ^ 2 :=
        Finset.sum_le_sum_of_subset_of_nonneg (Finset.range_subset.mpr hm)
          (fun i _ _ => sq_nonneg (u.getD i 0))
    _ = ∑ i in Finset.range u.length, u.getD i 0 * u.getD i 0 :=
        Finset.sum_congr rfl fun i _ => by ring

theorem dotq_sq_le (u v : Vec) : dotq u v ^ 2 ≤ dotq u u * dotq v v := by
  have hcs := Finset.sum_mul_sq_le_sq_mul_sq (Finset.range (min u.length v.length))
    (fun i => u.getD i 0) (fun i => v.getD i 0)
  rw [dotq_eq_sum u v]
  refine le_trans hcs (mul_le_mul ?_ ?_ ?_ ?_)
  · exact dotq_self_nonneg_sum u _ (Nat.min_le_left _ _)
  · exact dotq_self_nonneg_sum v _ (Nat.min_le_right _ _)
  · exact Finset.sum_nonneg fun i _ => sq_nonneg (v.getD i 0)
  · exact le_trans (Finset.sum_nonneg fun i _ => sq_nonneg (u.getD i 0))
      (dotq_self_nonneg_sum u u.length le_rfl)

theorem dotq_unit_bound (u v : Vec) (hu : dotq u u = 1) (hv : dotq v v = 1) :
    -1 ≤ dotq u v ∧ dotq u v ≤ 1 := by
  have h := dotq_sq_le u v
  rw [hu, hv, mul_one] at h
  exact abs_le.mp ((sq_le_one_iff_abs_le_one (dotq u v)).mp h)

theorem LRU.get_entries_sub {α : Type} (c : LRU α) (k : String) :
    ∀ pr ∈ (c.get k).2.entries, pr ∈ c.entries := by
  intro pr hpr
  unfold LRU.get at hpr
  split at hpr
  · exact hpr
  · split at hpr
    · exact hpr
    · rename_i kv hfind
      rcases List.mem_append.mp hpr with h | h
      · exact (List.mem_filter.mp h).1
      · have hkv : kv ∈ c.entries := List.mem_of_find?_eq_some hfind
        have hp : (kv.1 == k) = true := by
          have := List.find?_some hfind
          simpa using this
        have hk : kv.1 = k := beq_iff_eq.mp hp
        have hpr2 : pr = (k, kv.2) := List.mem_singleton.mp h
        rw [hpr2, ← hk]
        exact hkv

theorem LRU.get_some_val {α : Type} (c : LRU α) (k : String) (v : α)
    (h : (c.get k).1 = some v) : (k, v) ∈ c.entries := by
  unfold LRU.get at h
  split at h
  · cases h
  · split at h
    · cases h
    · rename_i kv hfind
      have hkv : kv ∈ c.entries := List.mem_of_find?_eq_some hfind
      have hp : (kv.1 == k) = true := by
        have := List.find?_some hfind
        simpa using this
      have hk : kv.1 = k := beq_iff_eq.mp hp
      cases h
      rw [← hk]
      exact hkv

theorem LRU.set_entries_sub {α : Type} (c : LRU α) (k : String) (v : α) :
    ∀ pr ∈ (c.set k v).entries, pr ∈ c.entries ∨ pr = (k, v) := by
  intro pr hpr
  unfold LRU.set at hpr
  split at hpr
  · exact Or.inl hpr
  · have hpr2 := List.mem_of_mem_drop hpr
    split at hpr2
    · rcases List.mem_append.mp hpr2 with h | h
      · exact Or.inl (List.mem_filter.mp h).1
      · exact Or.inr (List.mem_singleton.mp h)
    · rcases List.mem_append.mp hpr2 with h | h
      · exact Or.inl h
      · exact Or.inr (List.mem_singleton.mp h)

theorem encodeList_unit (env : Env)
    (hunit : ∀ s v, env.encode s = some v → dotq v v = 1) :
    ∀ ts embs, encodeList env ts = some embs → ∀ v ∈ embs, dotq v v = 1 := by
  intro ts
  induction ts with
  | nil =>
    intro embs h v hv
    simp only [encodeList, List.mapM_nil, Option.pure_def, Option.some.injEq] at h
    rw [← h] at hv
    cases hv
  | cons t ts ih =>
    intro embs h v hv
    simp only [encodeList, List.mapM_cons, Option.pure_def, Option.bind_eq_bind,
      Option.bind_eq_some] at h
    obtain ⟨w, hw, rest, hrest, hembs⟩ := h
    obtain rfl : w :: rest = embs := by injection hembs
    rcases List.mem_cons.mp hv with h1 | h1
    · rw [h1]
      exact hunit t w hw
    · exact ih rest hrest v h1

theorem itemsShape_nil (k : Nat) : ItemsShape k [] ∧ ScoresOk [] :=
  ⟨⟨Nat.zero_le k, fun j h => absurd h (by simp)⟩,
    fun it hit => absurd hit (List.not_mem_nil it)⟩

theorem mkItemsFrom_id (sc : List ℚ) (cm : List ChunkMeta) :
    ∀ (top : List Nat) (s j : Nat) (h : j < (mkItemsFrom sc cm s top).length),
      ((mkItemsFrom sc cm s top).get ⟨j, h⟩).id = s + j := by
  intro top
  induction top with
  | nil => intro s j h; simp [mkItemsFrom] at h
  | cons idx rest ih =>
    intro s j h
    cases j with
    | zero => rfl
    | succ i =>
      have h2 : i < (mkItemsFrom sc cm (s + 1) rest).length := by
        simp only [mkItemsFrom, List.length_cons] at h
        omega
      have hg : ((mkItemsFrom sc cm s (idx :: rest)).get ⟨i + 1, h⟩).id =
          ((mkItemsFrom sc cm (s + 1) rest).get ⟨i, h2⟩).id := rfl
      rw [hg, ih (s + 1) i h2]
      omega

theorem mkItemsFrom_score (sc : List ℚ) (cm : List ChunkMeta) :
    ∀ (top : List Nat) (s : Nat) (it : RetrievalItem),
      it ∈ mkItemsFrom sc cm s top → it.score = 0 ∨ it.score ∈ sc := by
  intro top
  induction top with
  | nil => intro s it hit; cases hit
  | cons idx rest ih =>
    intro s it hit
    rcases List.mem_cons.mp hit with h | h
    · by_cases hlt : idx < sc.length
      · right
        rw [h]
        have hD : sc.getD idx 0 = sc.get ⟨idx, hlt⟩ := by
          simp [List.getD_eq_getElem?_getD, List.getElem?_eq_getElem hlt]
        rw [hD]
        exact List.get_mem sc idx hlt
      · left
        rw [h]
        simpa using List.getD_eq_default sc (0 : ℚ) (by omega)
    · exact ih (s + 1) it h

theorem items_shape (top : List Nat) (sc : List ℚ) (cm : List ChunkMeta) (k : Nat) :
    ItemsShape k ((mkItems top sc cm).take k) := by
  refine ⟨?_, ?_⟩
  · rw [List.length_take]
    omega
  · intro j h
    have hj : j < (mkItems top sc cm).length := by
      rw [List.length_take] at h
      omega
    have hget : ((mkItems top sc cm).take k).get ⟨j, h⟩ =
        (mkItems top sc cm).get ⟨j, hj⟩ := List.get_take' _
    rw [hget]
    have := mkItemsFrom_id sc cm top 0 j hj
    simpa using this

theorem items_scores (top : List Nat) (sc : List ℚ) (cm : List ChunkMeta) (k : Nat)
    (hsc : ∀ x ∈ sc, ScoreOk x) : ScoresOk ((mkItems top sc cm).take k) := by
  intro it hit
  rcases mkItemsFrom_score sc cm top 0 it (List.mem_of_mem_take hit) with h | h
  · rw [h]
    exact Or.inl ⟨by norm_num, by norm_num⟩
  · exact hsc _ h

theorem accum_unit (env : Env) (cfg : Config)
    (hunit : ∀ s v, env.encode s = some v → dotq v v = 1) :
    ∀ (ps : List String) acc σ, UnitChunkC σ.chunkC → (∀ v ∈ acc.2.2, dotq v v = 1) →
      (UnitChunkC (accumChunksOver env cfg ps acc σ).2.chunkC ∧
        ∀ r, (accumChunksOver env cfg ps acc σ).1 = some r → ∀ v ∈ r.2.2, dotq v v = 1) := by
  intro ps
  induction ps with
  | nil =>
    intro acc σ hC hA
    exact ⟨hC, fun r hr => by injection hr with h; subst h; exact hA⟩
  | cons p ps ih =>
    intro acc σ hC hA
    simp only [accumChunksOver]
    split
    · exact ⟨hC, fun r hr => by injection hr with h; subst h; exact hA⟩
    · have hCsub : UnitChunkC (σ.chunkC.get p).2 :=
        fun pr hpr => hC pr (LRU.get_entries_sub σ.chunkC p pr hpr)
      cases hg : (σ.chunkC.get p).1 with
      | some r =>
        dsimp only
        have hrunit : ∀ v ∈ r.emb, dotq v v = 1 :=
          hC (p, r) (LRU.get_some_val σ.chunkC p r hg)
        split
        · exact ih _ _ hCsub hA
        · refine ih _ _ hCsub ?_
          intro v hv
          rcases List.mem_append.mp hv with h | h
          · exact hA v h
          · exact hrunit v (List.mem_of_mem_take h)
      | none =>
        cases he : env.getEntry p with
        | none => exact ih _ _ hCsub hA
        | some e =>
          dsimp only
          split
          · exact ih _ _ hCsub hA
          · cases hen : encodeList env (extract_chunks cfg e).1 with
            | none =>
              refine ⟨hCsub, fun r hr => ?_⟩
              cases hr
            | some emb =>
              have hembU : ∀ v ∈ emb, dotq v v = 1 := encodeList_unit env hunit _ emb hen
              refine ih _ _ ?_ ?_
              · intro pr hpr
                rcases LRU.set_entries_sub _ p ⟨(extract_chunks cfg e).1,
                    (extract_chunks cfg e).2, emb⟩ pr hpr with h | h
                · exact hCsub pr h
                · rw [h]
                  exact hembU
              · intro v hv
                rcases List.mem_append.mp hv with h | h
                · exact hA v h
                · exact hembU v (List.mem_of_mem_take h)

theorem recall_unit (env : Env) (cfg : Config)
    (hunit : ∀ s v, env.encode s = some v → dotq v v = 1)
    (queries : List String) (w l : Nat) (σ : St) (hC : UnitChunkC σ.chunkC) :
    UnitChunkC (recall_and_chunks env cfg queries w l σ).2.chunkC ∧
      ∀ r, (recall_and_chunks env cfg queries w l σ).1 = some r →
        ∀ v ∈ r.2.2, dotq v v = 1 := by
  unfold recall_and_chunks
  exact accum_unit env cfg hunit _ ([], [], []) _ hC (fun v hv => absurd hv (List.not_mem_nil v))

theorem titleStage_unit (env : Env) (cfg : Config) (q : String) (k : Nat)
    (tp : List String) (σ : St)
    (hunit : ∀ s v, env.encode s = some v → dotq v v = 1)
    (hC : UnitChunkC σ.chunkC) :
    UnitChunkC (titleStage env cfg q k tp σ).2.chunkC := by
  unfold titleStage
  split
  · exact hC
  · cases he : env.encode q with
    | none => exact hC
    | some qv =>
      dsimp only
      rcases hsp : scorePages env qv tp [] σ with ⟨o, σ1⟩
      have hC1 : UnitChunkC σ1.chunkC := by
        have h2 : σ1.chunkC = σ.chunkC := by
          have := (scorePages_state env qv tp [] σ).1
          rw [hsp] at this
          simpa using this
        rw [h2]
        exact hC
      cases o with
      | none => exact hC1
      | some ps =>
        dsimp only
        split
        · exact hC1
        · rcases hac : accumChunksOver env cfg
              (List.map (fun x => x.2.1) ((sortDescScores ps).take (max 1 cfg.TOP_PAGES)))
              ([], [], []) σ1 with ⟨o2, σ2⟩
          have hC2 : UnitChunkC σ2.chunkC := by
            have := (accum_unit env cfg hunit
              (List.map (fun x => x.2.1) ((sortDescScores ps).take (max 1 cfg.TOP_PAGES)))
              ([], [], []) σ1 hC1 (fun v hv => absurd hv (List.not_mem_nil v))).1
            rw [hac] at this
            exact this
          rw [hac]
          cases o2 with
          | none => exact hC2
          | some acc =>
            dsimp only
            split
            · exact hC2
            · split
              · exact hC2
              · exact hC2

theorem titleStage_items (env : Env) (cfg : Config) (q : String) (k : Nat)
    (tp : List String) (σ : St) :
    ∀ its σ2, titleStage env cfg q k tp σ = (some (some its), σ2) →
      ItemsShape k its ∧
        ((∀ s v, env.encode s = some v → dotq v v = 1) → UnitChunkC σ.chunkC →
          ScoresOk its) := by
  intro its σ2 h
  unfold titleStage at h
  split at h
  · simp at h
  · split at h
    · simp at h
    · rename_i qv hqv
      split at h
      · simp at h
      · rename_i ps σ1 hsp
        split at h
        · simp at h
        · dsimp only at h
          split at h
          · simp at h
          · rename_i acc σ1b hacc
            split at h
            · simp at h
            · split at h
              · simp only [Prod.mk.injEq, Option.some.injEq] at h
                obtain ⟨hits, -⟩ := h
                subst hits
                refine ⟨items_shape _ _ _ k, fun hunit hC => ?_⟩
                refine items_scores _ _ _ k ?_
                intro x hx
                obtain ⟨v, hv, hxv⟩ := List.mem_map.mp hx
                have hC1 : UnitChunkC σ1.chunkC := by
                  have h2 : σ1.chunkC = σ.chunkC := by
                    have := (scorePages_state env qv tp [] σ).1
                    rw [hsp] at this
                    simpa using this
                  rw [h2]
                  exact hC
                have hvu : dotq v v = 1 := by
                  have := (accum_unit env cfg hunit
                    (List.map (fun x => x.2.1) ((sortDescScores ps).take (max 1 cfg.TOP_PAGES)))
                    ([], [], []) σ1 hC1 (fun w hw => absurd hw (List.not_mem_nil w))).2
                  rw [hacc] at this
                  exact this acc rfl v hv
                rw [← hxv]
                exact Or.inl (dotq_unit_bound v qv hvu (hunit q qv hqv))
              · simp at h

theorem stage2rank_scores_ok (env : Env) (cfg : Config) (q : String) (k wanted : Nat)
    (ct : List String) (cm : List ChunkMeta) (XV : List Vec) (σ : St)
    (hunit : ∀ s v, env.encode s = some v → dotq v v = 1)
    (hC : UnitChunkC σ.chunkC) (hXV : ∀ v ∈ XV, dotq v v = 1) :
    ∀ top sc ct2 cm2 σ2,
      stage2rank env cfg q k wanted ct cm XV σ = (some (TryRes.ranked top sc ct2 cm2), σ2) →
      ∀ x ∈ sc, ScoreOk x := by
  intro top sc ct2 cm2 σ2 h
  unfold stage2rank at h
  split at h
  · simp only [Prod.mk.injEq, Option.some.injEq, TryRes.ranked.injEq] at h
    obtain ⟨⟨-, hsc, -, -⟩, -⟩ := h
    subst hsc
    intro x hx
    exact Or.inr (List.eq_of_mem_replicate hx)
  · rename_i qv hqv
    dsimp only at h
    split at h
    · split at h
      · simp only [Prod.mk.injEq, Option.some.injEq, TryRes.ranked.injEq] at h
        obtain ⟨⟨-, hsc, -, -⟩, -⟩ := h
        subst hsc
        intro x hx
        exact Or.inr (List.eq_of_mem_replicate hx)
      · rename_i acc2 σ2b hrec
        split at h
        · simp at h
        · simp only [Prod.mk.injEq, Option.some.injEq, TryRes.ranked.injEq] at h
          obtain ⟨⟨-, hsc, -, -⟩, -⟩ := h
          subst hsc
          intro x hx
          obtain ⟨v, hv, hxv⟩ := List.mem_map.mp hx
          have hru := (recall_unit env cfg hunit [q]
            ((⌊(wanted : ℚ) * cfg.SECOND_PASS_FACTOR⌋).toNat)
            ((⌊(cfg.RECALL_LIMIT : ℚ) * cfg.SECOND_PASS_FACTOR⌋).toNat) σ hC).2
          rw [hrec] at hru
          have hvu : dotq v v = 1 := hru acc2 rfl v hv
          rw [← hxv]
          exact Or.inl (dotq_unit_bound v qv hvu (hunit q qv hqv))
    · simp only [Prod.mk.injEq, Option.some.injEq, TryRes.ranked.injEq] at h
      obtain ⟨⟨-, hsc, -, -⟩, -⟩ := h
      subst hsc
      intro x hx
      obtain ⟨v, hv, hxv⟩ := List.mem_map.mp hx
      rw [← hxv]
      exact Or.inl (dotq_unit_bound v qv (hXV v hv) (hunit q qv hqv))

/-- C4.  Result bound and shape: whenever `search` (resp. `search_in_path`)
returns a result list, it holds at most `topK` items with consecutive
positional ids 0, 1, ...; and under the hypothesis that the encoder
produces unit-normalized vectors and every cached embedding is
unit-normalized, every returned score is a cosine in `[-1, 1]` or the
uniform fallback placeholder 1. -/
theorem search_result_shape (env : Env) (cfg : Config) (q : String) (k : Nat) (σ : St) :
    (∀ items σ2, search env cfg q k σ = (some items, σ2) →
        ItemsShape k items ∧
          ((∀ s v, env.encode s = some v → dotq v v = 1) → WFSt σ → ScoresOk items)) ∧
      ∀ p items σ2, search_in_path env cfg p q k σ = (some items, σ2) →
        ItemsShape k items ∧
          ((∀ s v, env.encode s = some v → dotq v v = 1) → WFSt σ → ScoresOk items) := by
  constructor
  · intro items σ2 h
    unfold search at h
    split at h
    · simp at h
    · rename_i tp σ1 htsp
      split at h
      · simp at h
      · rename_i its σb hts
        simp only [Prod.mk.injEq, Option.some.injEq] at h
        obtain ⟨hits, -⟩ := h
        subst hits
        have hti := titleStage_items env cfg q k tp σ1 its σb hts
        refine ⟨hti.1, fun hunit hσ => ?_⟩
        refine hti.2 hunit ?_
        have h2 : σ1.chunkC = σ.chunkC := by
          have := (tsp_state env cfg q σ).1
          rw [htsp] at this
          simpa using this
        rw [h2]
        exact hσ.1
      · rename_i σb hts
        dsimp only at h
        split at h
        · simp at h
        · rename_i acc σ3 hrec
          split at h
          · simp only [Prod.mk.injEq, Option.some.injEq] at h
            obtain ⟨hits, -⟩ := h
            subst hits
            exact ⟨(itemsShape_nil k).1, fun _ _ => (itemsShape_nil k).2⟩
          · split at h
            · simp at h
            · simp only [Prod.mk.injEq, Option.some.injEq] at h
              obtain ⟨hits, -⟩ := h
              subst hits
              exact ⟨(itemsShape_nil k).1, fun _ _ => (itemsShape_nil k).2⟩
            · rename_i top sc ctF cmF σ4 hstg
              simp only [Prod.mk.injEq, Option.some.injEq] at h
              obtain ⟨hits, -⟩ := h
              subst hits
              refine ⟨items_shape _ _ _ k, fun hunit hσ => ?_⟩
              have hC1 : UnitChunkC σ1.chunkC := by
                have h2 : σ1.chunkC = σ.chunkC := by
                  have := (tsp_state env cfg q σ).1
                  rw [htsp] at this
                  simpa using this
                rw [h2]
                exact hσ.1
              have hC2 : UnitChunkC σb.chunkC := by
                have := titleStage_unit env cfg q k tp σ1 hunit hC1
                rw [hts] at this
                exact this
              have hC3 : UnitChunkC σ3.chunkC := by
                have := (recall_unit env cfg hunit [q] (max 200 (cfg.MAX_ARTICLES * 10))
                  cfg.RECALL_LIMIT σb hC2).1
                rw [hrec] at this
                exact this
              have hXVu : ∀ v ∈ acc.2.2, dotq v v = 1 := by
                have := (recall_unit env cfg hunit [q] (max 200 (cfg.MAX_ARTICLES * 10))
                  cfg.RECALL_LIMIT σb hC2).2
                rw [hrec] at this
                exact this acc rfl
              refine items_scores _ _ _ k ?_
              exact stage2rank_scores_ok env cfg q k (max 200 (cfg.MAX_ARTICLES * 10))
                acc.1 acc.2.1 acc.2.2 σ3 hunit hC3 hXVu top sc ctF cmF σ4 hstg
  · intro p items σ2 h
    unfold search_in_path at h
    split at h
    · simp only [Prod.mk.injEq, Option.some.injEq] at h
      obtain ⟨hits, -⟩ := h
      subst hits
      exact ⟨(itemsShape_nil k).1, fun _ _ => (itemsShape_nil k).2⟩
    · rename_i e he
      dsimp only at h
      split at h
      · rename_i r hg
        split at h
        · simp only [Prod.mk.injEq, Option.some.injEq] at h
          obtain ⟨hits, -⟩ := h
          subst hits
          exact ⟨(itemsShape_nil k).1, fun _ _ => (itemsShape_nil k).2⟩
        · unfold sipFinish at h
          split at h
          · simp at h
          · rename_i qv hqv
            simp only [Prod.mk.injEq, Option.some.injEq] at h
            obtain ⟨hits, -⟩ := h
            subst hits
            refine ⟨items_shape _ _ _ k, fun hunit hσ => ?_⟩
            refine items_scores _ _ _ k ?_
            intro x hx
            obtain ⟨v, hv, hxv⟩ := List.mem_map.mp hx
            have hvu : dotq v v = 1 :=
              hσ.1 (e.path, r) (LRU.get_some_val σ.chunkC e.path r hg) v hv
            rw [← hxv]
            exact Or.inl (dotq_unit_bound v qv hvu (hunit q qv hqv))
      · split at h
        · simp only [Prod.mk.injEq, Option.some.injEq] at h
          obtain ⟨hits, -⟩ := h
          subst hits
          exact ⟨(itemsShape_nil k).1, fun _ _ => (itemsShape_nil k).2⟩
        · split at h
          · simp at h
          · rename_i emb hen
            unfold sipFinish at h
            split at h
            · simp at h
            · rename_i qv hqv
              simp only [Prod.mk.injEq, Option.some.injEq] at h
              obtain ⟨hits, -⟩ := h
              subst hits
              refine ⟨items_shape _ _ _ k, fun hunit hσ => ?_⟩
              refine items_scores _ _ _ k ?_
              intro x hx
              obtain ⟨v, hv, hxv⟩ := List.mem_map.mp hx
              have hvu : dotq v v = 1 := encodeList_unit env hunit _ emb hen v hv
              rw [← hxv]
              exact Or.inl (dotq_unit_bound v qv hvu (hunit q qv hqv))

unseal Rat.mul Rat.add in
theorem search_result_shape_witness :
    (∀ items σ2, search env1 cfg0 "hello" 6 st0 = (some items, σ2) →
        ItemsShape 6 items ∧ ScoresOk items) ∧
      ∀ p items σ2, search_in_path env1 cfg0 p "hello" 6 st0 = (some items, σ2) →
        ItemsShape 6 items ∧ ScoresOk items := by
  have hunit : ∀ s v, env1.encode s = some v → dotq v v = 1 := fun s v hv => by
    simp only [env1] at hv
    injection hv with hv2
    rw [← hv2]
    rfl
  have hwf : WFSt st0 :=
    ⟨fun pr hpr => absurd hpr (List.not_mem_nil pr),
      fun pr hpr => absurd hpr (List.not_mem_nil pr)⟩
  have h := search_result_shape env1 cfg0 "hello" 6 st0
  exact ⟨fun items σ2 hs => ⟨(h.1 items σ2 hs).1, (h.1 items σ2 hs).2 hunit hwf⟩,
    fun p items σ2 hs => ⟨(h.2 p items σ2 hs).1, (h.2 p items σ2 hs).2 hunit hwf⟩⟩

theorem tsp_pure_eq (env : Env) (cfg : Config) (q : String) (σ : St)
    (hco : SuggCo env cfg σ.suggestC) :
    (title_suggest_paths env cfg q σ).1 = some (computeSuggest env cfg (normalizeQuery q)) ∧
      SuggCo env cfg (title_suggest_paths env cfg q σ).2.suggestC := by
  unfold title_suggest_paths
  cases hg : (σ.suggestC.get (normalizeQuery q)).1 with
  | none =>
    constructor
    · simp only [hg]
    · intro pr hpr
      simp only [hg] at hpr
      rcases LRU.set_entries_sub _ _ _ pr hpr with hmem | heq
      · exact hco pr (LRU.get_entries_sub _ _ pr hmem)
      · rw [heq]
  | some ps =>
    constructor
    · simp only [hg]
      have h2 : ps = computeSuggest env cfg (normalizeQuery q) := by
        have := hco (normalizeQuery q, ps) (LRU.get_some_val _ _ _ hg)
        simpa using this
      rw [h2]
    · intro pr hpr
      simp only [hg] at hpr
      exact hco pr (LRU.get_entries_sub _ _ pr hpr)

theorem scorePages_pure_eq (env : Env) (qv : Vec) :
    ∀ (ps : List String) acc σ, LeadCo env σ.leadC →
      ((scorePages env qv ps acc σ).1 = scorePagesPure env qv ps acc ∧
        LeadCo env (scorePages env qv ps acc σ).2.leadC) := by
  intro ps
  induction ps with
  | nil => intro acc σ hco; exact ⟨rfl, hco⟩
  | cons p ps ih =>
    intro acc σ hco
    have hcoSub : LeadCo env (σ.leadC.get p).2 :=
      fun pr hpr => hco pr (LRU.get_entries_sub _ _ pr hpr)
    simp only [scorePages, scorePagesPure]
    cases hg : (σ.leadC.get p).1 with
    | some r =>
      dsimp only
      obtain ⟨e, hge, hlead, htitle, henc⟩ := hco (p, r) (LRU.get_some_val _ _ _ hg)
      dsimp only at hge hlead htitle henc
      simp only [hge]
      rw [if_neg hlead]
      simp only [htitle, henc]
      exact ih _ _ hcoSub
    | none =>
      dsimp only
      cases he : env.getEntry p with
      | none => exact ih _ _ hcoSub
      | some e =>
        dsimp only
        split
        · exact ih _ _ hcoSub
        · cases hen : env.encode ((extract_lead e).1 ++ ". " ++ (extract_lead e).2) with
          | none => exact ⟨rfl, hcoSub⟩
          | some lemb =>
            refine ih _ _ ?_
            intro pr hpr
            rcases LRU.set_entries_sub _ _ _ pr hpr with hmem | heq
            · exact hcoSub pr hmem
            · rw [heq]
              rename_i hleadne
              exact ⟨e, he, by simpa using hleadne, rfl, hen⟩

theorem accum_pure_eq (env : Env) (cfg : Config) :
    ∀ (ps : List String) acc σ, ChunkCo env cfg σ.chunkC →
      ((accumChunksOver env cfg ps acc σ).1 = accumPure env cfg ps acc ∧
        ChunkCo env cfg (accumChunksOver env cfg ps acc σ).2.chunkC) := by
  intro ps
  induction ps with
  | nil => intro acc σ hco; exact ⟨rfl, hco⟩
  | cons p ps ih =>
    intro acc σ hco
    have hcoSub : ChunkCo env cfg (σ.chunkC.get p).2 :=
      fun pr hpr => hco pr (LRU.get_entries_sub _ _ pr hpr)
    simp only [accumChunksOver, accumPure]
    split
    · exact ⟨rfl, hco⟩
    · cases hg : (σ.chunkC.get p).1 with
      | some r =>
        dsimp only
        obtain ⟨e, hge, htexts, hmeta, hne, henc⟩ := hco (p, r) (LRU.get_some_val _ _ _ hg)
        dsimp only at hge htexts hmeta hne henc
        simp only [hge]
        rw [if_neg (show ¬r.texts.isEmpty = true by simpa [List.isEmpty_iff] using hne),
          if_neg (show ¬(extract_chunks cfg e).1.isEmpty = true by
            simp only [List.isEmpty_iff, htexts]; exact hne)]
        simp only [htexts, hmeta, henc]
        exact ih _ _ hcoSub
      | none =>
        dsimp only
        cases he : env.getEntry p with
        | none => exact ih _ _ hcoSub
        | some e =>
          dsimp only
          split
          · exact ih _ _ hcoSub
          · cases hen : encodeList env (extract_chunks cfg e).1 with
            | none => exact ⟨rfl, hcoSub⟩
            | some emb =>
              refine ih _ _ ?_
              intro pr hpr
              rcases LRU.set_entries_sub _ _ _ pr hpr with hmem | heq
              · exact hcoSub pr hmem
              · rw [heq]
                rename_i hne2
                exact ⟨e, he, rfl, rfl, by simpa [List.isEmpty_iff] using hne2, hen⟩

theorem recall_pure_eq (env : Env) (cfg : Config) (queries : List String)
    (w l : Nat) (σ : St) (hco : ChunkCo env cfg σ.chunkC) :
    (recall_and_chunks env cfg queries w l σ).1 = recallChunksPure env cfg queries w l ∧
      ChunkCo env cfg (recall_and_chunks env cfg queries w l σ).2.chunkC := by
  unfold recall_and_chunks recallChunksPure
  exact accum_pure_eq env cfg _ ([], [], []) _ hco

theorem titleStage_pure_eq (env : Env) (cfg : Config) (query : String) (k : Nat)
    (tp : List String) (σ : St)
    (hcoC : ChunkCo env cfg σ.chunkC) (hcoL : LeadCo env σ.leadC) :
    (titleStage env cfg query k tp σ).1 = titleStagePure env cfg query k tp ∧
      ChunkCo env cfg (titleStage env cfg query k tp σ).2.chunkC ∧
      LeadCo env (titleStage env cfg query k tp σ).2.leadC := by
  unfold titleStage titleStagePure
  split
  · exact ⟨rfl, hcoC, hcoL⟩
  · cases he : env.encode query with
    | none => exact ⟨rfl, hcoC, hcoL⟩
    | some qv =>
      dsimp only
      rcases hsp : scorePages env qv tp [] σ with ⟨o, σ1⟩
      have hspe := scorePages_pure_eq env qv tp [] σ hcoL
      rw [hsp] at hspe
      have ho : o = scorePagesPure env qv tp [] := by simpa using hspe.1
      have hcoL1 : LeadCo env σ1.leadC := by simpa using hspe.2
      have hcoC1 : ChunkCo env cfg σ1.chunkC := by
        have := (scorePages_state env qv tp [] σ).1
        rw [hsp] at this
        have h2 : σ1.chunkC = σ.chunkC := by simpa using this
        rw [h2]
        exact hcoC
      try rw [hsp]
      rw [← ho]
      cases o with
      | none => exact ⟨rfl, hcoC1, hcoL1⟩
      | some ps =>
        dsimp only
        by_cases hps : ps.isEmpty = true
        · simp only [if_pos hps]
          exact ⟨trivial, hcoC1, hcoL1⟩
        · simp only [if_neg hps]
          rcases hac : accumChunksOver env cfg
              (List.map (fun x => x.2.1) ((sortDescScores ps).take (max 1 cfg.TOP_PAGES)))
              ([], [], []) σ1 with ⟨o2, σ2⟩
          have hace := accum_pure_eq env cfg
            (List.map (fun x => x.2.1) ((sortDescScores ps).take (max 1 cfg.TOP_PAGES)))
            ([], [], []) σ1 hcoC1
          rw [hac] at hace
          have ho2 : o2 = accumPure env cfg
              (List.map (fun x => x.2.1) ((sortDescScores ps).take (max 1 cfg.TOP_PAGES)))
              ([], [], []) := by simpa using hace.1
          have hcoC2 : ChunkCo env cfg σ2.chunkC := by simpa using hace.2
          have hcoL2 : LeadCo env σ2.leadC := by
            have := (accum_state env cfg
              (List.map (fun x => x.2.1) ((sortDescScores ps).take (max 1 cfg.TOP_PAGES)))
              ([], [], []) σ1).2.1
            rw [hac] at this
            have h2 : σ2.leadC = σ1.leadC := by simpa using this
            rw [h2]
            exact hcoL1
          try rw [hac]
          rw [← ho2]
          cases o2 with
          | none => exact ⟨rfl, hcoC2, hcoL2⟩
          | some acc =>
            dsimp only
            by_cases hae : acc.1.isEmpty = true
            · simp only [if_pos hae]
              exact ⟨trivial, hcoC2, hcoL2⟩
            · simp only [if_neg hae]
              by_cases hbest :
                  cfg.TITLE_SIM_EXIT ≤ listMaxD (List.map (fun v => dotq v qv) acc.2.2) 0
              · simp only [if_pos hbest]
                exact ⟨trivial, hcoC2, hcoL2⟩
              · simp only [if_neg hbest]
                exact ⟨trivial, hcoC2, hcoL2⟩

theorem stage2rank_pure_eq (env : Env) (cfg : Config) (query : String) (k wanted : Nat)
    (ct : List String) (cm : List ChunkMeta) (XV : List Vec) (σ : St)
    (hcoC : ChunkCo env cfg σ.chunkC) :
    (stage2rank env cfg query k wanted ct cm XV σ).1 =
        stage2rankPure env cfg query k wanted ct cm XV ∧
      ChunkCo env cfg (stage2rank env cfg query k wanted ct cm XV σ).2.chunkC ∧
      (stage2rank env cfg query k wanted ct cm XV σ).2.leadC = σ.leadC ∧
      (stage2rank env cfg query k wanted ct cm XV σ).2.suggestC = σ.suggestC := by
  unfold stage2rank stage2rankPure
  cases he : env.encode query with
  | none => exact ⟨rfl, hcoC, rfl, rfl⟩
  | some qv =>
    dsimp only
    split
    · rcases hr : recall_and_chunks env cfg [query]
          ((⌊(wanted : ℚ) * cfg.SECOND_PASS_FACTOR⌋).toNat)
          ((⌊(cfg.RECALL_LIMIT : ℚ) * cfg.SECOND_PASS_FACTOR⌋).toNat) σ with ⟨o, σ2⟩
      have hre := recall_pure_eq env cfg [query]
        ((⌊(wanted : ℚ) * cfg.SECOND_PASS_FACTOR⌋).toNat)
        ((⌊(cfg.RECALL_LIMIT : ℚ) * cfg.SECOND_PASS_FACTOR⌋).toNat) σ hcoC
      rw [hr] at hre
      have ho : o = recallChunksPure env cfg [query]
          ((⌊(wanted : ℚ) * cfg.SECOND_PASS_FACTOR⌋).toNat)
          ((⌊(cfg.RECALL_LIMIT : ℚ) * cfg.SECOND_PASS_FACTOR⌋).toNat) := by
        simpa using hre.1
      have hcoC2 : ChunkCo env cfg σ2.chunkC := by simpa using hre.2
      have hL2 : σ2.leadC = σ.leadC := by
        have := (recall_state env cfg [query]
          ((⌊(wanted : ℚ) * cfg.SECOND_PASS_FACTOR⌋).toNat)
          ((⌊(cfg.RECALL_LIMIT : ℚ) * cfg.SECOND_PASS_FACTOR⌋).toNat) σ).2.1
        rw [hr] at this
        simpa using this
      have hS2 : σ2.suggestC = σ.suggestC := by
        have := (recall_state env cfg [query]
          ((⌊(wanted : ℚ) * cfg.SECOND_PASS_FACTOR⌋).toNat)
          ((⌊(cfg.RECALL_LIMIT : ℚ) * cfg.SECOND_PASS_FACTOR⌋).toNat) σ).1
        rw [hr] at this
        simpa using this
      try rw [hr]
      rw [← ho]
      cases o with
      | none => exact ⟨rfl, hcoC2, hL2, hS2⟩
      | some acc2 =>
        dsimp only
        by_cases hae : acc2.1.isEmpty = true
        · simp only [if_pos hae]
          exact ⟨trivial, hcoC2, hL2, hS2⟩
        · simp only [if_neg hae]
          exact ⟨trivial, hcoC2, hL2, hS2⟩
    · exact ⟨rfl, hcoC, rfl, rfl⟩

theorem search_pure_eq (env : Env) (cfg : Config) (q : String) (k : Nat) (σ : St)
    (hco : Coherent env cfg σ) :
    (search env cfg q k σ).1 = searchPure env cfg q k ∧
      Coherent env cfg (search env cfg q k σ).2 := by
  obtain ⟨hcoS, hcoC, hcoL⟩ := hco
  unfold search searchPure
  rcases hts : title_suggest_paths env cfg q σ with ⟨o1, σ1⟩
  have htse := tsp_pure_eq env cfg q σ hcoS
  rw [hts] at htse
  have ho1 : o1 = some (computeSuggest env cfg (normalizeQuery q)) := by simpa using htse.1
  have hcoS1 : SuggCo env cfg σ1.suggestC := by simpa using htse.2
  have hcoC1 : ChunkCo env cfg σ1.chunkC := by
    have h1 := (tsp_state env cfg q σ).1
    rw [hts] at h1
    have h2 : σ1.chunkC = σ.chunkC := by simpa using h1
    rw [h2]
    exact hcoC
  have hcoL1 : LeadCo env σ1.leadC := by
    have h1 := (tsp_state env cfg q σ).2.1
    rw [hts] at h1
    have h2 : σ1.leadC = σ.leadC := by simpa using h1
    rw [h2]
    exact hcoL
  try rw [hts]
  subst ho1
  dsimp only
  rcases hstg : titleStage env cfg q k (computeSuggest env cfg (normalizeQuery q)) σ1
    with ⟨o2, σ2⟩
  have htpe := titleStage_pure_eq env cfg q k (computeSuggest env cfg (normalizeQuery q))
    σ1 hcoC1 hcoL1
  rw [hstg] at htpe
  have ho2 : o2 = titleStagePure env cfg q k (computeSuggest env cfg (normalizeQuery q)) := by
    simpa using htpe.1
  have hcoC2 : ChunkCo env cfg σ2.chunkC := by simpa using htpe.2.1
  have hcoL2 : LeadCo env σ2.leadC := by simpa using htpe.2.2
  have hcoS2 : SuggCo env cfg σ2.suggestC := by
    have h1 := (titleStage_state env cfg q k (computeSuggest env cfg (normalizeQuery q)) σ1).1
    rw [hstg] at h1
    have h2 : σ2.suggestC = σ1.suggestC := by simpa using h1
    rw [h2]
    exact hcoS1
  try rw [hstg]
  rw [← ho2]
  cases o2 with
  | none => exact ⟨rfl, hcoS2, hcoC2, hcoL2⟩
  | some o3 =>
    cases o3 with
    | some its => exact ⟨rfl, hcoS2, hcoC2, hcoL2⟩
    | none =>
      dsimp only
      rcases hrec : recall_and_chunks env cfg [q] (max 200 (cfg.MAX_ARTICLES * 10))
        cfg.RECALL_LIMIT σ2 with ⟨o4, σ3⟩
      have hre := recall_pure_eq env cfg [q] (max 200 (cfg.MAX_ARTICLES * 10))
        cfg.RECALL_LIMIT σ2 hcoC2
      rw [hrec] at hre
      have ho4 : o4 = recallChunksPure env cfg [q] (max 200 (cfg.MAX_ARTICLES * 10))
          cfg.RECALL_LIMIT := by simpa using hre.1
      have hcoC3 : ChunkCo env cfg σ3.chunkC := by simpa using hre.2
      have hcoS3 : SuggCo env cfg σ3.suggestC := by
        have h1 := (recall_state env cfg [q] (max 200 (cfg.MAX_ARTICLES * 10))
          cfg.RECALL_LIMIT σ2).1
        rw [hrec] at h1
        have h2 : σ3.suggestC = σ2.suggestC := by simpa using h1
        rw [h2]
        exact hcoS2
      have hcoL3 : LeadCo env σ3.leadC := by
        have h1 := (recall_state env cfg [q] (max 200 (cfg.MAX_ARTICLES * 10))
          cfg.RECALL_LIMIT σ2).2.1
        rw [hrec] at h1
        have h2 : σ3.leadC = σ2.leadC := by simpa using h1
        rw [h2]
        exact hcoL2
      try rw [hrec]
      rw [← ho4]
      cases o4 with
      | none => exact ⟨rfl, hcoS3, hcoC3, hcoL3⟩
      | some acc =>
        dsimp only
        by_cases hae : acc.1.isEmpty = true
        · simp only [if_pos hae]
          exact ⟨trivial, hcoS3, hcoC3, hcoL3⟩
        · simp only [if_neg hae]
          rcases hs2 : stage2rank env cfg q k (max 200 (cfg.MAX_ARTICLES * 10))
            acc.1 acc.2.1 acc.2.2 σ3 with ⟨o5, σ4⟩
          have hse := stage2rank_pure_eq env cfg q k (max 200 (cfg.MAX_ARTICLES * 10))
            acc.1 acc.2.1 acc.2.2 σ3 hcoC3
          rw [hs2] at hse
          have ho5 : o5 = stage2rankPure env cfg q k (max 200 (cfg.MAX_ARTICLES * 10))
              acc.1 acc.2.1 acc.2.2 := by simpa using hse.1
          have hcoC4 : ChunkCo env cfg σ4.chunkC := by simpa using hse.2.1
          have hcoL4 : LeadCo env σ4.leadC := by
            have h2 : σ4.leadC = σ3.leadC := by simpa using hse.2.2.1
            rw [h2]
            exact hcoL3
          have hcoS4 : SuggCo env cfg σ4.suggestC := by
            have h2 : σ4.suggestC = σ3.suggestC := by simpa using hse.2.2.2
            rw [h2]
            exact hcoS3
          try rw [hs2]
          rw [← ho5]
          cases o5 with
          | none => exact ⟨rfl, hcoS4, hcoC4, hcoL4⟩
          | some t =>
            cases t with
            | retEmpty => exact ⟨rfl, hcoS4, hcoC4, hcoL4⟩
            | ranked top sc ctF cmF => exact ⟨rfl, hcoS4, hcoC4, hcoL4⟩

/-- C9.  Idempotence: for every query and `topK`, running `search` again
from the state left by a first run — served in part from the caches that
run populated — returns exactly the same result list (ids, titles, urls,
snippets and scores, in order).  The model encoder is a function, which is
the spec's determinism hypothesis; the hypothesis `Coherent` states that
every cache entry equals the value a fresh computation would produce,
holds for the empty caches, and is preserved by `search` itself. -/
theorem search_idempotent (env : Env) (cfg : Config) (q : String) (k : Nat) (σ : St)
    (hco : Coherent env cfg σ) :
    (search env cfg q k ((search env cfg q k σ).2)).1 = (search env cfg q k σ).1 := by
  have h1 := search_pure_eq env cfg q k σ hco
  have h2 := search_pure_eq env cfg q k ((search env cfg q k σ).2) h1.2
  rw [h1.1, h2.1]

theorem search_idempotent_witness :
    (search env1 cfg0 "hello" 6 ((search env1 cfg0 "hello" 6 st0).2)).1 =
      (search env1 cfg0 "hello" 6 st0).1 :=
  search_idempotent env1 cfg0 "hello" 6 st0
    ⟨fun pr hpr => absurd hpr (List.not_mem_nil pr),
      fun pr hpr => absurd hpr (List.not_mem_nil pr),
      fun pr hpr => absurd hpr (List.not_mem_nil pr)⟩


end WikiBox
